import Mathlib

/-!
Verification of the fault-tolerant structured-output parser of
`dataflow_agent/utils.py` (function `robust_parse_json` and its helpers),
together with the agent-factory defaults of `dataflow_agent/agentroles`.

Python strings are modelled as `List Char`; Python `json` values as the
inductive type `J` below.  All definitions are executable and are
translated statement by statement from the Python source.
-/

namespace P2A

/-- Values produced by Python `json.loads`: `None`, `bool`, `int`, `float`,
`str`, `list`, `dict`.  A non-integral numeric literal is kept as its raw
lexeme (`fnum`); objects are association lists in insertion order, as
Python dicts are. -/
inductive J : Type where
  | null : J
  | bool (b : Bool) : J
  | num (n : Int) : J
  | fnum (lex : List Char) : J
  | str (s : List Char) : J
  | arr (elems : List J) : J
  | obj (kvs : List (List Char × J)) : J

mutual

/-- Structural boolean equality on `J` (Python `==` restricted to the
values compared in this development, where key order coincides). -/
def beqJ : J → J → Bool
  | J.null, J.null => true
  | J.bool a, J.bool b => a == b
  | J.num a, J.num b => a == b
  | J.fnum a, J.fnum b => a == b
  | J.str a, J.str b => a == b
  | J.arr a, J.arr b => beqListJ a b
  | J.obj a, J.obj b => beqFieldsJ a b
  | _, _ => false

/-- Elementwise equality of value lists, part of the mutual recursion of
`beqJ`. -/
def beqListJ : List J → List J → Bool
  | [], [] => true
  | x :: xs, y :: ys => beqJ x y && beqListJ xs ys
  | _, _ => false

/-- Fieldwise equality of object fields, part of the mutual recursion of
`beqJ`. -/
def beqFieldsJ : List (List Char × J) → List (List Char × J) → Bool
  | [], [] => true
  | (k₁, v₁) :: xs, (k₂, v₂) :: ys => k₁ == k₂ && beqJ v₁ v₂ && beqFieldsJ xs ys
  | _, _ => false

end

mutual

theorem beqJ_iff_eq : ∀ a b : J, beqJ a b = true ↔ a = b
  | J.null, J.null => by simp [beqJ]
  | J.bool _, J.bool _ => by simp [beqJ]
  | J.num _, J.num _ => by simp [beqJ]
  | J.fnum _, J.fnum _ => by simp [beqJ]
  | J.str _, J.str _ => by simp [beqJ]
  | J.arr x, J.arr y => by simp [beqJ, beqListJ_iff_eq x y]
  | J.obj x, J.obj y => by simp [beqJ, beqFieldsJ_iff_eq x y]
  | J.null, J.bool _ | J.null, J.num _ | J.null, J.fnum _ | J.null, J.str _
  | J.null, J.arr _ | J.null, J.obj _
  | J.bool _, J.null | J.bool _, J.num _ | J.bool _, J.fnum _ | J.bool _, J.str _
  | J.bool _, J.arr _ | J.bool _, J.obj _
  | J.num _, J.null | J.num _, J.bool _ | J.num _, J.fnum _ | J.num _, J.str _
  | J.num _, J.arr _ | J.num _, J.obj _
  | J.fnum _, J.null | J.fnum _, J.bool _ | J.fnum _, J.num _ | J.fnum _, J.str _
  | J.fnum _, J.arr _ | J.fnum _, J.obj _
  | J.str _, J.null | J.str _, J.bool _ | J.str _, J.num _ | J.str _, J.fnum _
  | J.str _, J.arr _ | J.str _, J.obj _
  | J.arr _, J.null | J.arr _, J.bool _ | J.arr _, J.num _ | J.arr _, J.fnum _
  | J.arr _, J.str _ | J.arr _, J.obj _
  | J.obj _, J.null | J.obj _, J.bool _ | J.obj _, J.num _ | J.obj _, J.fnum _
  | J.obj _, J.str _ | J.obj _, J.arr _ => by simp [beqJ]

theorem beqListJ_iff_eq : ∀ xs ys : List J, beqListJ xs ys = true ↔ xs = ys
  | [], [] => by simp [beqListJ]
  | x :: xs, y :: ys => by
    simp [beqListJ, beqJ_iff_eq x y, beqListJ_iff_eq xs ys]
  | [], _ :: _ => by simp [beqListJ]
  | _ :: _, [] => by simp [beqListJ]

theorem beqFieldsJ_iff_eq :
    ∀ xs ys : List (List Char × J), beqFieldsJ xs ys = true ↔ xs = ys
  | [], [] => by simp [beqFieldsJ]
  | (k₁, v₁) :: xs, (k₂, v₂) :: ys => by
    simp [beqFieldsJ, beqJ_iff_eq v₁ v₂, beqFieldsJ_iff_eq xs ys, and_assoc]
  | [], _ :: _ => by simp [beqFieldsJ]
  | _ :: _, [] => by simp [beqFieldsJ]

end

instance : DecidableEq J := fun a b =>
  decidable_of_iff (beqJ a b = true) (beqJ_iff_eq a b)

instance : DecidableEq (Except (List Char) J) := fun a b =>
  match a, b with
  | Except.ok x, Except.ok y =>
    if h : x = y then isTrue (by rw [h])
    else isFalse (fun hc => by cases hc; exact h rfl)
  | Except.error x, Except.error y =>
    if h : x = y then isTrue (by rw [h])
    else isFalse (fun hc => by cases hc; exact h rfl)
  | Except.ok _, Except.error _ => isFalse (fun hc => by cases hc)
  | Except.error _, Except.ok _ => isFalse (fun hc => by cases hc)

/-! ## Character classes and elementary string operations -/

/-- The whitespace skipped by Python's JSON decoder: space, tab, LF, CR. -/
instance : Inhabited J := ⟨J.null⟩

def jsonWs (c : Char) : Bool := c == ' ' || c == '\t' || c == '\n' || c == '\r'

/-- ASCII whitespace as recognised by Python `str.strip` and by the regex
class `\s`: space, tab, LF, CR, VT, FF. -/
def pyWs (c : Char) : Bool := jsonWs c || c == '\x0b' || c == '\x0c'

/-- Python `str.lstrip()`. -/
def lstripF (s : List Char) : List Char := s.dropWhile (fun c => pyWs c)

/-- Python `str.rstrip()`. -/
def rstripF (s : List Char) : List Char :=
  (s.reverse.dropWhile (fun c => pyWs c)).reverse

/-- Python `str.strip()`. -/
def stripF (s : List Char) : List Char := rstripF (lstripF s)

/-- Skip JSON-decoder whitespace. -/
def skipWs (s : List Char) : List Char := s.dropWhile (fun c => jsonWs c)

/-- `startsWithL pat s` holds when `pat` is an initial segment of `s`. -/
def startsWithL : List Char → List Char → Bool
  | [], _ => true
  | _ :: _, [] => false
  | p :: ps, c :: cs => p == c && startsWithL ps cs

/-- Locate the leftmost occurrence of a nonempty `pat` in a string,
returning the text before it and the text after it (`none` if absent,
and always `none` for an empty pattern, which the source never uses). -/
def splitFirst (pat : List Char) : List Char → Option (List Char × List Char)
  | [] => none
  | c :: t =>
    if startsWithL pat (c :: t) && !pat.isEmpty then
      some ([], (c :: t).drop pat.length)
    else
      match splitFirst pat t with
      | none => none
      | some (b, a) => some (c :: b, a)

/-- One pass of Python `str.replace`, with fuel bounding the number of
replacements (left to right, non-overlapping). -/
def replaceF (pat rep : List Char) : Nat → List Char → List Char
  | 0, s => s
  | fuel + 1, s =>
    match splitFirst pat s with
    | none => s
    | some (b, a) => b ++ rep ++ replaceF pat rep fuel a

/-- Python `str.replace(pat, rep)` for a nonempty `pat`: a nonempty
pattern occurs at most `s.length` times, so the fuel never runs out. -/
def replaceAll (s pat rep : List Char) : List Char :=
  replaceF pat rep (s.length + 1) s

/-! ## The JSON decoder (`json.loads` / `JSONDecoder.raw_decode`) -/

/-- Value of a hexadecimal digit. -/
def hexVal (c : Char) : Option Nat :=
  if '0' ≤ c && c ≤ '9' then some (c.toNat - 48)
  else if 'a' ≤ c && c ≤ 'f' then some (c.toNat - 87)
  else if 'A' ≤ c && c ≤ 'F' then some (c.toNat - 55)
  else none

def isDigitC (c : Char) : Bool := 48 ≤ c.toNat && c.toNat ≤ 57

def digitVal (c : Char) : Nat := c.toNat - 48

/-- Scan the body of a JSON string, the opening quote already consumed;
returns the decoded content and the text after the closing quote.
Strict mode: raw control characters and invalid escapes are errors.
A lone surrogate from a `\uXXXX` escape, which Python would keep, falls
to `Char.ofNat`'s default since a Lean `Char` cannot store it.
Each step consumes at least one character, so fuel `length + 1` in
`parseStr` below is never exhausted. -/
def parseEscF (rec : List Char → Option (List Char × List Char)) :
    List Char → Option (List Char × List Char)
  | '\x22' :: r => (rec r).map (fun p => ('\x22' :: p.1, p.2))
  | '\\' :: r => (rec r).map (fun p => ('\\' :: p.1, p.2))
  | '/' :: r => (rec r).map (fun p => ('/' :: p.1, p.2))
  | 'b' :: r => (rec r).map (fun p => ('\x08' :: p.1, p.2))
  | 'f' :: r => (rec r).map (fun p => ('\x0c' :: p.1, p.2))
  | 'n' :: r => (rec r).map (fun p => ('\n' :: p.1, p.2))
  | 'r' :: r => (rec r).map (fun p => ('\r' :: p.1, p.2))
  | 'u' :: h1 :: h2 :: h3 :: h4 :: r =>
    match hexVal h1, hexVal h2, hexVal h3, hexVal h4 with
    | some a, some b, some c, some d =>
      let x := ((a * 16 + b) * 16 + c) * 16 + d
      if 55296 ≤ x && x ≤ 56319 then
        match r with
        | '\\' :: 'u' :: g1 :: g2 :: g3 :: g4 :: r2 =>
          match hexVal g1, hexVal g2, hexVal g3, hexVal g4 with
          | some a2, some b2, some c2, some d2 =>
            let y := ((a2 * 16 + b2) * 16 + c2) * 16 + d2
            if 56320 ≤ y && y ≤ 57343 then
              (rec r2).map (fun p =>
                (Char.ofNat (65536 + (x - 55296) * 1024 + (y - 56320)) :: p.1, p.2))
            else (rec r).map (fun p => (Char.ofNat x :: p.1, p.2))
          | _, _, _, _ =>
            (rec r).map (fun p => (Char.ofNat x :: p.1, p.2))
        | _ => (rec r).map (fun p => (Char.ofNat x :: p.1, p.2))
      else (rec r).map (fun p => (Char.ofNat x :: p.1, p.2))
    | _, _, _, _ => none
  | _ => none

def parseStrF : Nat → List Char → Option (List Char × List Char)
  | 0, _ => none
  | fuel + 1, s =>
    match s with
    | [] => none
    | c :: t =>
      if c = '\x22' then some ([], t)
      else if c = '\\' then parseEscF (parseStrF fuel) t
      else if c.toNat < 32 then none
      else (parseStrF fuel t).map (fun p => (c :: p.1, p.2))

/-- Scan a JSON string body with sufficient fuel. -/
def parseStr (s : List Char) : Option (List Char × List Char) :=
  parseStrF (s.length + 1) s

/-- Longest digit run at the head of the input. -/
def takeDigits : List Char → (List Char × List Char)
  | [] => ([], [])
  | c :: t =>
    if isDigitC c then
      let p := takeDigits t
      (c :: p.1, p.2)
    else ([], c :: t)

/-- Finish scanning a numeric literal whose sign and integer part are
known, per the decoder's `NUMBER_RE`:
optional `.digits` fraction, optional `[eE][+-]?digits` exponent.
An integer literal yields `J.num`; otherwise the lexeme is kept. -/
def finishNum (negChars intChars rest : List Char) : J × List Char :=
  let fr : List Char × List Char :=
    match rest with
    | '.' :: t =>
      match takeDigits t with
      | ([], _) => ([], rest)
      | (ds, r) => ('.' :: ds, r)
    | _ => ([], rest)
  let fracChars := fr.1
  let r1 := fr.2
  let ex : List Char × List Char :=
    match r1 with
    | e :: t =>
      if e == 'e' || e == 'E' then
        match t with
        | sgn :: t2 =>
          if sgn == '+' || sgn == '-' then
            match takeDigits t2 with
            | ([], _) => ([], r1)
            | (ds, r) => (e :: sgn :: ds, r)
          else
            match takeDigits t with
            | ([], _) => ([], r1)
            | (ds, r) => (e :: ds, r)
        | [] => ([], r1)
      else ([], r1)
    | [] => ([], r1)
  let expChars := ex.1
  let r2 := ex.2
  if fracChars.isEmpty && expChars.isEmpty then
    let m : Nat := intChars.foldl (fun a c => a * 10 + digitVal c) 0
    (J.num (if negChars.isEmpty then (m : Int) else -(m : Int)), rest)
  else (J.fnum (negChars ++ intChars ++ fracChars ++ expChars), r2)

/-- Scan a numeric literal at the head of the input, following the
decoder's `NUMBER_RE`: `-?(0|[1-9][0-9]*)(\.[0-9]+)?([eE][+-]?[0-9]+)?`.
`01` scans as `0` leaving `1` unread, exactly as the regex matches. -/
def parseNum (s : List Char) : Option (J × List Char) :=
  let sg : List Char × List Char :=
    match s with
    | '-' :: t => (['-'], t)
    | _ => ([], s)
  let negChars := sg.1
  match sg.2 with
  | '0' :: t => some (finishNum negChars ['0'] t)
  | c :: t =>
    if isDigitC c then
      let p := takeDigits t
      some (finishNum negChars (c :: p.1) p.2)
    else none
  | [] => none

def infinityLex : List Char := ['I', 'n', 'f', 'i', 'n', 'i', 't', 'y']

/-- Python dict assignment `d[k] = v`: overwrite in place when the key
exists, append otherwise. -/
def updKV : List (List Char × J) → List Char → J → List (List Char × J)
  | [], k, v => [(k, v)]
  | (k0, v0) :: t, k, v =>
    if k0 = k then (k0, v) :: t else (k0, v0) :: updKV t k v

mutual

/-- `scan_once` of Python's JSON decoder at an exact position (no leading
whitespace skip).  The fuel decreases on every nested call; since each
such call first consumes at least one character, fuel `length + 1` is
never exhausted. -/
def parseVal : Nat → List Char → Option (J × List Char)
  | 0, _ => none
  | fuel + 1, s =>
    match s with
    | '\x22' :: t => (parseStr t).map (fun p => (J.str p.1, p.2))
    | '\x7b' :: t =>
      match skipWs t with
      | '\x7d' :: r => some (J.obj [], r)
      | r => parseMembers fuel r []
    | '[' :: t =>
      match skipWs t with
      | ']' :: r => some (J.arr [], r)
      | r => parseElems fuel r []
    | 'n' :: 'u' :: 'l' :: 'l' :: t => some (J.null, t)
    | 't' :: 'r' :: 'u' :: 'e' :: t => some (J.bool true, t)
    | 'f' :: 'a' :: 'l' :: 's' :: 'e' :: t => some (J.bool false, t)
    | 'N' :: 'a' :: 'N' :: t => some (J.fnum ['N', 'a', 'N'], t)
    | 'I' :: 'n' :: 'f' :: 'i' :: 'n' :: 'i' :: 't' :: 'y' :: t =>
      some (J.fnum infinityLex, t)
    | '-' :: 'I' :: 'n' :: 'f' :: 'i' :: 'n' :: 'i' :: 't' :: 'y' :: t =>
      some (J.fnum ('-' :: infinityLex), t)
    | _ => parseNum s

/-- Object members after the opening brace (nonempty case): repeatedly a
quoted key, `:`, a value, then `,` or `}`, with decoder whitespace
skipped between tokens.  Members accumulate with dict semantics. -/
def parseMembers : Nat → List Char → List (List Char × J) →
    Option (J × List Char)
  | 0, _, _ => none
  | fuel + 1, s, acc =>
    match s with
    | '\x22' :: t =>
      match parseStr t with
      | none => none
      | some (k, r1) =>
        match skipWs r1 with
        | ':' :: r2 =>
          match parseVal fuel (skipWs r2) with
          | none => none
          | some (v, r3) =>
            match skipWs r3 with
            | ',' :: r4 => parseMembers fuel (skipWs r4) (updKV acc k v)
            | '\x7d' :: r4 => some (J.obj (updKV acc k v), r4)
            | _ => none
        | _ => none
    | _ => none

/-- Array elements after the opening bracket (nonempty case). -/
def parseElems : Nat → List Char → List J → Option (J × List Char)
  | 0, _, _ => none
  | fuel + 1, s, acc =>
    match parseVal fuel s with
    | none => none
    | some (v, r) =>
      match skipWs r with
      | ',' :: r2 => parseElems fuel (skipWs r2) (acc ++ [v])
      | ']' :: r2 => some (J.arr (acc ++ [v]), r2)
      | _ => none

end

/-- `JSONDecoder.raw_decode` at position 0 of the given suffix: decode
one value exactly at the head, returning it with the unconsumed rest. -/
def rawDecode (s : List Char) : Option (J × List Char) :=
  parseVal (s.length + 1) s

/-- Python `json.loads`: skip leading whitespace, decode one value, and
require only whitespace to remain. -/
def loads (s : List Char) : Option J :=
  match parseVal (s.length + 1) (skipWs s) with
  | none => none
  | some (v, rest) => if (skipWs rest).isEmpty then some v else none

/-! ## Preprocessing stages of `robust_parse_json` -/

def backtick3 : List Char := ['\x60', '\x60', '\x60']

/-- A regex `[\w-]` character (ASCII view of `\w`). -/
def isWordChar (c : Char) : Bool := c.isAlphanum || c == '_' || c == '-'

/-- Search for the lazily-first closing fence: a position where three
backticks occur followed only by whitespace; returns the text before it. -/
def fenceClose : List Char → Option (List Char)
  | [] => none
  | c :: t =>
    if startsWithL backtick3 (c :: t) && ((c :: t).drop 3).all (fun x => pyWs x) then
      some []
    else
      match fenceClose t with
      | none => none
      | some b => some (c :: b)

/-- `_remove_markdown_fence`: the anchored regex
`^\s*BT[\w-]*\s*([\s\S]*?)BT\s*$` (`BT` three backticks) matched against
the input; on a match the stripped group is returned, otherwise the
input unchanged. -/
def removeMarkdownFence (src : List Char) : List Char :=
  let s1 := src.dropWhile (fun c => pyWs c)
  if startsWithL backtick3 s1 then
    let s2 := (s1.drop 3).dropWhile (fun c => isWordChar c)
    let s3 := s2.dropWhile (fun c => pyWs c)
    match fenceClose s3 with
    | some inner => stripF inner
    | none => src
  else src

/-- `_remove_outer_triple_quotes`: if the input both starts and ends with
the same triple quote (single or double), drop three characters from each
side (Python slice `[3:-3]`) and strip. -/
def removeOuterTripleQuotes (src : List Char) : List Char :=
  let q1 : List Char := ['\x27', '\x27', '\x27']
  let q2 : List Char := ['\x22', '\x22', '\x22']
  if (startsWithL q1 src && startsWithL q1 src.reverse)
      || (startsWithL q2 src && startsWithL q2 src.reverse) then
    stripF ((src.drop 3).take (src.length - 6))
  else src

/-- `_remove_leading_json_word`: when the lowercased input starts with
`json`, drop those four characters and left-strip. -/
def removeLeadingJsonWord (src : List Char) : List Char :=
  match src with
  | a :: b :: c :: d :: t =>
    if [a.toLower, b.toLower, c.toLower, d.toLower] = ['j', 's', 'o', 'n'] then
      lstripF t
    else src
  | _ => src

def starSlash : List Char := ['*', '/']

/-- First pass of `_strip_json_comments`: the lazy regex `/\*[\s\S]*?\*/`
removes, left to right, each `/*` together with the text up to the next
`*/`; a `/*` with no later `*/` is left in place. -/
def stripBlockComments : Nat → List Char → List Char
  | 0, s => s
  | fuel + 1, s =>
    match s with
    | [] => []
    | '/' :: '*' :: t =>
      match splitFirst starSlash t with
      | some (_, a) => stripBlockComments fuel a
      | none => '/' :: stripBlockComments fuel ('*' :: t)
    | c :: t => c :: stripBlockComments fuel t

/-- One-character lookbehind of the line-comment regex `(?<![:\"\'])`. -/
def blockedBefore : Option Char → Bool
  | some c => c == ':' || c == '\x22' || c == '\x27'
  | none => false

/-- Does the text start with a slash? -/
def headSlash : List Char → Bool
  | [] => false
  | c :: _ => c == '/'

/-- Scan of one `\n`-free segment for the line-comment regex
`(?<![:\"\'])//.*`: at the first `//` whose preceding character is not
`:`, `\x22` or `\x27`, the rest of the segment is dropped. -/
def stripLineOne (prev : Option Char) : List Char → List Char
  | [] => []
  | c :: t =>
    if (c == '/' && headSlash t) && !blockedBefore prev then []
    else c :: stripLineOne (some c) t

/-- Split on `\n` keeping empty segments (regex `.` stops at `\n` only). -/
def splitOnNl : List Char → List (List Char)
  | [] => [[]]
  | c :: t =>
    if c = '\n' then [] :: splitOnNl t
    else
      match splitOnNl t with
      | [] => [[c]]
      | l :: ls => (c :: l) :: ls

def joinNl : List (List Char) → List Char
  | [] => []
  | [l] => l
  | l :: ls => l ++ '\n' :: joinNl ls

/-- Second pass of `_strip_json_comments`: the line-comment regex applied
to the whole text, i.e. to each `\n`-delimited segment. -/
def stripLineComments (s : List Char) : List Char :=
  joinNl ((splitOnNl s).map (fun l => stripLineOne none l))

/-- Third pass of `_strip_json_comments`: the regex `,\s*([}\]])`
replaces a comma, optional whitespace and a closing bracket by the
bracket alone, scanning left to right. -/
def stripTrailingCommas : Nat → List Char → List Char
  | 0, s => s
  | fuel + 1, s =>
    match s with
    | [] => []
    | ',' :: t =>
      match t.dropWhile (fun c => pyWs c) with
      | '\x7d' :: r => '\x7d' :: stripTrailingCommas fuel r
      | ']' :: r => ']' :: stripTrailingCommas fuel r
      | _ => ',' :: stripTrailingCommas fuel t
    | c :: t => c :: stripTrailingCommas fuel t

/-- `_strip_json_comments`: block comments, then line comments, then
trailing commas, then `strip()`. -/
def stripJsonComments (src : List Char) : List Char :=
  let s1 := stripBlockComments (src.length + 1) src
  let s2 := stripLineComments s1
  let s3 := stripTrailingCommas (s2.length + 1) s2
  stripF s3

/-- The character class `[\x00-\x08\x0b\x0c\x0e-\x1f\x7f]` of control
characters that `robust_parse_json` deletes. -/
def isIllegalCtrl (c : Char) : Bool :=
  c.toNat ≤ 8 || c == '\x0b' || c == '\x0c'
    || (14 ≤ c.toNat && c.toNat ≤ 31) || c == '\x7f'

def removeCtrlChars (s : List Char) : List Char :=
  s.filter (fun c => !isIllegalCtrl c)

/-! ## Backslash normalization -/

def wDB : List Char := ['D', 'O', 'U', 'B', 'L', 'E', '_', 'B', 'A', 'C', 'K', 'S', 'L', 'A', 'S', 'H']
def wNL : List Char := ['N', 'E', 'W', 'L', 'I', 'N', 'E']
def wRT : List Char := ['R', 'E', 'T', 'U', 'R', 'N']
def wTB : List Char := ['T', 'A', 'B']
def wQU : List Char := ['Q', 'U', 'O', 'T', 'E']
def wSL : List Char := ['S', 'L', 'A', 'S', 'H']
def wBS : List Char := ['B', 'A', 'C', 'K', 'S', 'P', 'A', 'C', 'E']
def wFF : List Char := ['F', 'O', 'R', 'M', 'F', 'E', 'E', 'D']

/-- A sentinel token `\x00WORD\x00`. -/
def sentinel (w : List Char) : List Char := '\x00' :: w ++ ['\x00']

/-- A two-character escape sequence backslash-`c`. -/
def escPair (c : Char) : List Char := ['\\', c]

/-- The eight protected escape sequences with their sentinel words, in
the order the source replaces them. -/
def protectPairs : List (Char × List Char) :=
  [('\\', wDB), ('n', wNL), ('r', wRT), ('t', wTB),
   ('\x22', wQU), ('/', wSL), ('b', wBS), ('f', wFF)]

/-- The backslash-repair block of `robust_parse_json`: substitute each
already-escaped sequence by a sentinel, double every remaining
backslash, then restore the sentinels, each step a `str.replace`. -/
def normalizeBackslashes (s : List Char) : List Char :=
  let s1 := protectPairs.foldl
    (fun acc p => replaceAll acc (escPair p.1) (sentinel p.2)) s
  let s2 := replaceAll s1 ['\\'] ['\\', '\\']
  protectPairs.foldl
    (fun acc p => replaceAll acc (sentinel p.2) (escPair p.1)) s2

/-! ## Token analysis of the backslash normalization -/

/-- The eight escapable characters, in the order the source protects
them. -/
def escChars : List Char := ['\\', 'n', 'r', 't', '\x22', '/', 'b', 'f']

/-- The protection-order index of an escapable character (7 otherwise). -/
def escIdx (c : Char) : Nat :=
  if c = '\\' then 0
  else if c = 'n' then 1
  else if c = 'r' then 2
  else if c = 't' then 3
  else if c = '\x22' then 4
  else if c = '/' then 5
  else if c = 'b' then 6
  else 7

/-- The sentinel word of an escapable character. -/
def sentWord (c : Char) : List Char :=
  if c = '\\' then wDB
  else if c = 'n' then wNL
  else if c = 'r' then wRT
  else if c = 't' then wTB
  else if c = '\x22' then wQU
  else if c = '/' then wSL
  else if c = 'b' then wBS
  else wFF

/-- Stated from the spec for the backslash-repair claim: a token of the
input as the repair sees it — a protected two-character escape, a lone
(bare) backslash, or an ordinary character. -/
inductive BTok : Type where
  | esc (c : Char) : BTok
  | bare : BTok
  | chr (c : Char) : BTok

/-- The text of a token. -/
def btokRender : BTok → List Char
  | BTok.esc c => ['\\', c]
  | BTok.bare => ['\\']
  | BTok.chr c => [c]

/-- What the repair is meant to produce for a token: protected escapes
verbatim (never double-escaped), bare backslashes doubled. -/
def btokResult : BTok → List Char
  | BTok.esc c => ['\\', c]
  | BTok.bare => ['\\', '\\']
  | BTok.chr c => [c]

/-- An ordinary character the analysis admits: not a backslash (those
are the other tokens), not the NUL sentinel delimiter, and not an
uppercase letter (so no text can collide with a sentinel word). -/
def plainTokChar (c : Char) : Bool :=
  c != '\\' && c != '\x00' && !c.isUpper

def validBTok : BTok → Bool
  | BTok.esc c => escChars.contains c
  | BTok.bare => true
  | BTok.chr c => plainTokChar c

/-- After a bare backslash the text may only end or continue with an
ordinary non-escapable character — otherwise the greedy pairing would
have made a two-character token. -/
def nextOkAfterBare : List BTok → Bool
  | [] => true
  | BTok.chr c :: _ => !escChars.contains c
  | _ => false

def bareOk : BTok → List BTok → Bool
  | BTok.bare, rest => nextOkAfterBare rest
  | _, _ => true

def validBToks : List BTok → Bool
  | [] => true
  | t :: rest => (validBTok t && bareOk t rest) && validBToks rest

def flatBToks (f : BTok → List Char) : List BTok → List Char
  | [] => []
  | t :: rest => f t ++ flatBToks f rest

/-- Token image while the first `k` protection replacements have run. -/
def btokProtImg (k : Nat) : BTok → List Char
  | BTok.esc c => if escIdx c < k then sentinel (sentWord c) else ['\\', c]
  | BTok.bare => ['\\']
  | BTok.chr c => [c]

/-- Token image after doubling, while the first `k` restoration
replacements have run. -/
def btokRestImg (k : Nat) : BTok → List Char
  | BTok.esc c => if escIdx c < k then ['\\', c] else sentinel (sentWord c)
  | BTok.bare => ['\\', '\\']
  | BTok.chr c => [c]

/-- Bounded check that no occurrence of `pat` can begin inside `x`
(whatever follows `x`): at every offset the pattern, cut to the text
remaining in `x`, already mismatches. -/
def noStartB (pat x : List Char) : Bool :=
  (List.range x.length).all
    (fun i => !startsWithL (pat.take (x.length - i)) (x.drop i))

/-- As `noStartB` but ignoring the last `m` offsets of `x`. -/
def noStartBUpTo (pat x : List Char) (m : Nat) : Bool :=
  (List.range (x.length - m)).all
    (fun i => !startsWithL (pat.take (x.length - i)) (x.drop i))

/-! ## JSON Lines and streaming extraction -/

/-- `str.splitlines` worker (the control characters Python would also
split on are removed before this function is reached). -/
def splitlinesGo (cur : List Char) : List Char → List (List Char)
  | [] => [cur.reverse]
  | '\r' :: '\n' :: t => cur.reverse :: (if t.isEmpty then [] else splitlinesGo [] t)
  | '\r' :: t => cur.reverse :: (if t.isEmpty then [] else splitlinesGo [] t)
  | '\n' :: t => cur.reverse :: (if t.isEmpty then [] else splitlinesGo [] t)
  | c :: t => splitlinesGo (c :: cur) t

/-- Python `str.splitlines()` over `\n`, `\r`, `\r\n`. -/
def splitlinesF (s : List Char) : List (List Char) :=
  if s.isEmpty then [] else splitlinesGo [] s

/-- The stripped nonempty lines considered by `_parse_json_lines`. -/
def nonEmptyLines (src : List Char) : List (List Char) :=
  ((splitlinesF src).map stripF).filter (fun l => !l.isEmpty)

/-- The accumulation loop of `_parse_json_lines`: parse every line,
abandoning everything on the first failure. -/
def loadsAll : List (List Char) → Option (List J)
  | [] => some []
  | l :: t =>
    match loads l with
    | none => none
    | some v =>
      match loadsAll t with
      | none => none
      | some vs => some (v :: vs)

/-- `_parse_json_lines`: strip each line, keep the nonempty ones, demand
at least two, and parse every one; any failure abandons the strategy. -/
def parseJsonLines (src : List Char) : Option (List J) :=
  let lines := nonEmptyLines src
  if lines.length ≤ 1 then none
  else loadsAll lines

/-- The boundary check of `_extract_json_objects`: after `lstrip`, the
tail must be empty or start with one of `, ] } > \n \r` (the code's
literal set; the last two cannot survive `lstrip`). -/
def allowedBoundary (tail : List Char) : Bool :=
  match tail with
  | [] => true
  | c :: _ =>
    c == ',' || c == ']' || c == '\x7d' || c == '>' || c == '\n' || c == '\r'

/-- Advance to the next `{` or `[` (regex `[{\[]`), returning the suffix
starting there. -/
def findBrace : List Char → Option (List Char)
  | [] => none
  | c :: t => if c == '\x7b' || c == '[' then some (c :: t) else findBrace t

/-- The scan loop of `_extract_json_objects`: at each `{`/`[` attempt a
`raw_decode`; on success with an accepted boundary keep the value and
continue after it, otherwise advance one character past the brace.  The
cursor moves strictly forward, so fuel `length + 1` suffices. -/
def extractLoop : Nat → List Char → List J
  | 0, _ => []
  | fuel + 1, s =>
    match findBrace s with
    | none => []
    | some r =>
      match rawDecode r with
      | some (v, rem) =>
        if allowedBoundary (lstripF rem) then v :: extractLoop fuel rem
        else extractLoop fuel (r.drop 1)
      | none => extractLoop fuel (r.drop 1)

/-- `_extract_json_objects`. -/
def extractJsonObjects (src : List Char) : List J :=
  extractLoop (src.length + 1) src

/-! ## Merging and the top-level function -/

def isObjJ : J → Bool
  | J.obj _ => true
  | _ => false

def objKvs : J → List (List Char × J)
  | J.obj kvs => kvs
  | _ => []

/-- Python `dict.update`: assign each field of `o` into `d` in order. -/
def dictUpdate (d o : List (List Char × J)) : List (List Char × J) :=
  o.foldl (fun acc kv => updKV acc kv.1 kv.2) d

/-- `_maybe_merge`: a single fragment is returned as is; several are
merged into one dict when requested and possible, else kept as a list. -/
def maybeMerge (objs : List J) (merge_dicts : Bool) : J :=
  match objs with
  | [o] => o
  | _ =>
    if merge_dicts && objs.all isObjJ then
      J.obj (objs.foldl (fun acc o => dictUpdate acc (objKvs o)) [])
    else J.arr objs

/-- All preprocessing of `robust_parse_json` before the first parse
attempt, in source order: strip, outer fence, outer triple quotes,
leading `json` word, optional double-brace collapse, comments and
trailing commas, control characters, backslash repair. -/
def cleanText (strip_double_braces : Bool) (text : List Char) : List Char :=
  let s0 := stripF text
  let s1 := removeMarkdownFence s0
  let s2 := removeOuterTripleQuotes s1
  let s3 := removeLeadingJsonWord s2
  let s4 :=
    if strip_double_braces then
      replaceAll (replaceAll s3 ['\x7b', '\x7b'] ['\x7b']) ['\x7d', '\x7d'] ['\x7d']
    else s3
  let s5 := stripJsonComments s4
  let s6 := removeCtrlChars s5
  normalizeBackslashes s6

/-- The message of the `ValueError` raised when no fragment is found. -/
def noJsonFoundMsg : List Char :=
  "Unable to locate any valid JSON fragment.".toList

/-- Step 3 of `robust_parse_json`: streaming extraction of multiple
objects; zero fragments raise the `ValueError`. -/
def robustStep3 (s : List Char) (merge_dicts : Bool) : Except (List Char) J :=
  match extractJsonObjects s with
  | [] => Except.error noJsonFoundMsg
  | objs => Except.ok (maybeMerge objs merge_dicts)

/-- Step 2 of `robust_parse_json`: the JSON-Lines attempt, falling back
to extraction. -/
def robustStep2 (s : List Char) (merge_dicts : Bool) : Except (List Char) J :=
  (parseJsonLines s).elim (robustStep3 s merge_dicts)
    (fun objs => Except.ok (maybeMerge objs merge_dicts))

/-- `robust_parse_json`: preprocess, then whole-string parse, then JSON
Lines, then streaming extraction; zero fragments raise `ValueError`. -/
def robust_parse_json (text : List Char) (merge_dicts strip_double_braces : Bool) :
    Except (List Char) J :=
  let s := cleanText strip_double_braces text
  (loads s).elim (robustStep2 s merge_dicts) Except.ok

/-! ## Minified serialization (`json.dumps` with compact separators) -/

/-- Lowercase hexadecimal digit. -/
def hexDigitL (n : Nat) : Char :=
  if n < 10 then Char.ofNat (48 + n) else Char.ofNat (87 + n)

def uEscape (n : Nat) : List Char :=
  ['\\', 'u', hexDigitL (n / 4096 % 16), hexDigitL (n / 256 % 16),
   hexDigitL (n / 16 % 16), hexDigitL (n % 16)]

/-- `json.dumps` escaping with `ensure_ascii` (the default): the short
escapes, `\u00xx` for other control characters, `\uxxxx` beyond ASCII with
surrogate pairs past the BMP. -/
def escapeChar (c : Char) : List Char :=
  if c = '\x22' then ['\\', '\x22']
  else if c = '\\' then ['\\', '\\']
  else if c = '\n' then ['\\', 'n']
  else if c = '\r' then ['\\', 'r']
  else if c = '\t' then ['\\', 't']
  else if c = '\x08' then ['\\', 'b']
  else if c = '\x0c' then ['\\', 'f']
  else if c.toNat < 32 || 127 ≤ c.toNat then
    if c.toNat < 65536 then uEscape c.toNat
    else uEscape (55296 + (c.toNat - 65536) / 1024)
      ++ uEscape (56320 + (c.toNat - 65536) % 1024)
  else [c]

def escapeStr : List Char → List Char
  | [] => []
  | c :: t => escapeChar c ++ escapeStr t

/-- Decimal digits of a natural number, most significant first; the fuel
(at least the digit count) makes the recursion structural. -/
def natDigitsAux : Nat → Nat → List Char → List Char
  | 0, _, acc => acc
  | fuel + 1, n, acc =>
    if n = 0 then acc
    else natDigitsAux fuel (n / 10) (Char.ofNat (48 + n % 10) :: acc)

def natDigits (n : Nat) : List Char :=
  if n = 0 then ['0'] else natDigitsAux n n []

def intDigits (n : Int) : List Char :=
  if n < 0 then '-' :: natDigits n.natAbs else natDigits n.toNat

mutual

/-- Minified `json.dumps` (separators `,` and `:`, insertion key order,
`ensure_ascii`).  Serialization of floats is not modelled: `fnum` is
excluded by `wfJ` below and rendered as its lexeme. -/
def render : J → List Char
  | J.null => ['n', 'u', 'l', 'l']
  | J.bool true => ['t', 'r', 'u', 'e']
  | J.bool false => ['f', 'a', 'l', 's', 'e']
  | J.num n => intDigits n
  | J.fnum lex => lex
  | J.str s => '\x22' :: escapeStr s ++ ['\x22']
  | J.arr xs => '[' :: renderElems xs ++ [']']
  | J.obj kvs => '\x7b' :: renderMembers kvs ++ ['\x7d']

def renderElems : List J → List Char
  | [] => []
  | [x] => render x
  | x :: xs => render x ++ ',' :: renderElems xs

def renderMembers : List (List Char × J) → List Char
  | [] => []
  | [(k, v)] => '\x22' :: escapeStr k ++ '\x22' :: ':' :: render v
  | (k, v) :: kvs =>
    ('\x22' :: escapeStr k ++ '\x22' :: ':' :: render v) ++ ',' :: renderMembers kvs

end

/-- A string character that `json.dumps` emits verbatim: printable ASCII
other than the quote and the backslash. -/
def plainChar (c : Char) : Bool :=
  32 ≤ c.toNat && c.toNat < 127 && c != '\x22' && c != '\\'

def containsKey (t : List (List Char × J)) (k : List Char) : Bool :=
  t.any (fun kv => kv.1 == k)

mutual

/-- Well-formed values for the serialization round trip: no floats,
plain-ASCII strings and keys, and no duplicate keys — the shape of any
value `json.loads` returns from output `json.dumps` can print exactly. -/
def wfJ : J → Bool
  | J.null => true
  | J.bool _ => true
  | J.num _ => true
  | J.fnum _ => false
  | J.str s => s.all plainChar
  | J.arr xs => wfListJ xs
  | J.obj kvs => wfFieldsJ kvs

def wfListJ : List J → Bool
  | [] => true
  | x :: t => wfJ x && wfListJ t

def wfFieldsJ : List (List Char × J) → Bool
  | [] => true
  | (k, v) :: t =>
    k.all plainChar && !containsKey t k && wfJ v && wfFieldsJ t

end

/-- The character that may follow a rendered value inside a larger
rendered document: a separator, a closer, or the end of the input. -/
def restOk : List Char → Bool
  | [] => true
  | c :: _ => c == ',' || c == '\x7d' || c == ']'

/-- The characters that can start a rendered JSON value. -/
def valHead (c : Char) : Bool :=
  c == 'n' || c == 't' || c == 'f' || c == '\x22' || c == '\x7b' || c == '[' ||
  c == '-' || isDigitC c

/-- What follows the first element inside a rendered nonempty array. -/
def elemsSep : List J → List Char
  | [] => []
  | xs => ',' :: renderElems xs

/-- What follows the first member inside a rendered nonempty object. -/
def memSep : List (List Char × J) → List Char
  | [] => []
  | kvs => ',' :: renderMembers kvs

/-! ## Spec-side predicates for refinement statements -/

/-- Stated from the spec for the fence-stripping refinement claim: the
entire (whitespace-trimmed) input is wrapped by one triple-backtick
fence — an opening fence at the very start and a closing fence followed
only by whitespace. -/
def outerFenced (s : List Char) : Bool :=
  let s1 := s.dropWhile (fun c => pyWs c)
  startsWithL backtick3 s1 &&
    (fenceClose ((((s1.drop 3).dropWhile (fun c => isWordChar c)).dropWhile
      (fun c => pyWs c)))).isSome

/-- The two-character pattern `//` of the line-comment regex. -/
def dblSlash : List Char := ['/', '/']

/-- Stated from the spec for the comment claim: the lookbehind character
that governs a `//` occurrence after a prefix `a` — the last character
of `a`, or the character before the current segment when `a` is empty. -/
def blockedOcc (prev : Option Char) (a : List Char) : Bool :=
  match a.getLast? with
  | none => blockedBefore prev
  | some c => blockedBefore (some c)

/-- Python dict lookup on an association list (keys are unique in every
dict this development builds). -/
def lookupKV : List (List Char × J) → List Char → Option J
  | [], _ => none
  | (k0, v0) :: t, k => if k0 = k then some v0 else lookupKV t k

/-- The dict built by `_maybe_merge` from the fragments' field lists. -/
def mergedKvs (os : List (List (List Char × J))) : List (List Char × J) :=
  os.foldl dictUpdate []

/-- Stated from the spec for the merge claim: the value a key receives
from a shallow merge in encounter order — the value it has in the last
fragment that mentions it (within one fragment, the last mention). -/
def lastWins (os : List (List (List Char × J))) (k : List Char) : Option J :=
  os.foldl
    (fun acc o =>
      match lookupKV o.reverse k with
      | some v => some v
      | none => acc)
    none

/-! ## Agent factory defaults (`dataflow_agent/agentroles/__init__.py`) -/

/-- Modelled from the spec: the `ReactConfig` class lives in the
`agentroles/cores` package, which is absent from the sources; per the
spec the React variant "additionally carries `max_retries` (default 3)". -/
structure ReactConfig where
  max_retries : Nat

/-- Modelled from the spec: the `ParallelConfig` class lives in the
absent `agentroles/cores` package; per the spec the Parallel variant
"additionally carries `concurrency_limit` (default 5)". -/
structure ParallelConfig where
  concurrency_limit : Nat

/-- The configuration built by `create_react_agent`:
`ReactConfig(max_retries=max_retries, ...)`. -/
def create_react_agent (max_retries : Nat) : ReactConfig :=
  ReactConfig.mk max_retries

/-- A call of `create_react_agent` that does not pass `max_retries`: the
signature default `max_retries: int = 3` applies. -/
def create_react_agent_default : ReactConfig := create_react_agent 3

/-- The configuration built by `create_parallel_agent`:
`ParallelConfig(concurrency_limit=concurrency_limit, ...)`. -/
def create_parallel_agent (concurrency_limit : Nat) : ParallelConfig :=
  ParallelConfig.mk concurrency_limit

/-- A call of `create_parallel_agent` that does not pass
`concurrency_limit`: the signature default `concurrency_limit: int = 5`
applies. -/
def create_parallel_agent_default : ParallelConfig := create_parallel_agent 5

/-! ## Concrete inputs named in the claims -/

/-- The text `{"a":1} garbage {"b":2}` (braces written as escapes). -/
def exBoundary : List Char := "\x7b\x22a\x22:1\x7d garbage \x7b\x22b\x22:2\x7d".toList

/-- The text `{"a":1}` then a newline then `{"b":2}`. -/
def exMulti : List Char := "\x7b\x22a\x22:1\x7d\n\x7b\x22b\x22:2\x7d".toList

/-- A fenced block: three backticks, `json`, newline, `{"a":1}`, newline,
three backticks. -/
def exFence : List Char :=
  "\x60\x60\x60json\n\x7b\x22a\x22:1\x7d\n\x60\x60\x60".toList

/-- The text `{"t":"\alpha scaled"}` with a single raw backslash. -/
def exBackslash : List Char := "\x7b\x22t\x22:\x22\\alpha scaled\x22\x7d".toList

/-- The text `{"a":",,}"}`: a valid JSON document whose string value ends
in a comma and a closing brace. -/
def exCommaComma : List Char := "\x7b\x22a\x22:\x22,,\x7d\x22\x7d".toList

/-- The text `{"a":",}"}`: a valid JSON document whose string value is a
comma and a closing brace. -/
def exCommaBrace : List Char := "\x7b\x22a\x22:\x22,\x7d\x22\x7d".toList

/-- The text `{"a":"x//y"}`: a valid JSON document with `//` inside a
quoted string after an ordinary character. -/
def exSlashInStr : List Char := "\x7b\x22a\x22:\x22x//y\x22\x7d".toList

/-- The text `{"a":"://x"}`: `//` preceded by a colon, as in a URL. -/
def exUrlInStr : List Char := "\x7b\x22a\x22:\x22://x\x22\x7d".toList

/-- The text `/*c*/{"a":1}`: a block comment before a JSON object. -/
def exBlockComment : List Char := "/*c*/\x7b\x22a\x22:1\x7d".toList

def objA1 : J := J.obj [(['a'], J.num 1)]

def objB2 : J := J.obj [(['b'], J.num 2)]

def objA1B2 : J := J.obj [(['a'], J.num 1), (['b'], J.num 2)]

/-! # Theorems -/

set_option maxRecDepth 40000

/-! ## Unfolding lemmas for the staged fallback of `robust_parse_json` -/

theorem optionElim_none {α β : Type _} (b : β) (f : α → β) :
    (none : Option α).elim b f = b := rfl

theorem optionElim_some {α β : Type _} (a : α) (b : β) (f : α → β) :
    (some a).elim b f = f a := rfl

theorem robust_eq_stage1 (s : List Char) (md sdb : Bool) (v : J)
    (h : loads (cleanText sdb s) = some v) :
    robust_parse_json s md sdb = Except.ok v := by
  simp only [robust_parse_json]
  rw [h, optionElim_some]

theorem robust_eq_stage2 (s : List Char) (md sdb : Bool) (objs : List J)
    (h1 : loads (cleanText sdb s) = none)
    (h2 : parseJsonLines (cleanText sdb s) = some objs) :
    robust_parse_json s md sdb = Except.ok (maybeMerge objs md) := by
  simp only [robust_parse_json]
  rw [h1, optionElim_none]
  simp only [robustStep2]
  rw [h2, optionElim_some]

theorem robust_eq_stage3 (s : List Char) (md sdb : Bool)
    (h1 : loads (cleanText sdb s) = none)
    (h2 : parseJsonLines (cleanText sdb s) = none) :
    robust_parse_json s md sdb = robustStep3 (cleanText sdb s) md := by
  simp only [robust_parse_json]
  rw [h1, optionElim_none]
  simp only [robustStep2]
  rw [h2, optionElim_none]

theorem robustStep3_nil (s : List Char) (md : Bool)
    (h : extractJsonObjects s = []) :
    robustStep3 s md = Except.error noJsonFoundMsg := by
  unfold robustStep3
  rw [h]

theorem robustStep3_cons (s : List Char) (md : Bool) (a : J) (t : List J)
    (h : extractJsonObjects s = a :: t) :
    robustStep3 s md = Except.ok (maybeMerge (a :: t) md) := by
  unfold robustStep3
  rw [h]

theorem robustStep3_error_unique (s : List Char) (md : Bool) (e : List Char)
    (h : robustStep3 s md = Except.error e) : e = noJsonFoundMsg := by
  cases h3 : extractJsonObjects s with
  | nil =>
    rw [robustStep3_nil s md h3] at h
    cases h
    rfl
  | cons a t =>
    rw [robustStep3_cons s md a t h3] at h
    cases h

/-! ## Association-list lemmas for the merge rule -/

theorem lookupKV_updKV (d : List (List Char × J)) (k k2 : List Char) (v : J) :
    lookupKV (updKV d k v) k2 = if k = k2 then some v else lookupKV d k2 := by
  induction d with
  | nil => by_cases h : k = k2 <;> simp [updKV, lookupKV, h]
  | cons kv t ih =>
    obtain ⟨k0, v0⟩ := kv
    by_cases h0 : k0 = k
    · subst h0
      by_cases h : k0 = k2 <;> simp [updKV, lookupKV, h]
    · by_cases h : k0 = k2
      · subst h
        have hk : ¬ k = k0 := fun hc => h0 hc.symm
        simp [updKV, lookupKV, h0, hk]
      · simp [updKV, lookupKV, h0, h, ih]

theorem lookupKV_append (a b : List (List Char × J)) (k : List Char) :
    lookupKV (a ++ b) k =
      match lookupKV a k with
      | some v => some v
      | none => lookupKV b k := by
  induction a with
  | nil => simp [lookupKV]
  | cons kv t ih =>
    obtain ⟨k0, v0⟩ := kv
    by_cases h : k0 = k <;> simp [lookupKV, h, ih]

theorem lookupKV_dictUpdate (d o : List (List Char × J)) (k : List Char) :
    lookupKV (dictUpdate d o) k =
      match lookupKV o.reverse k with
      | some v => some v
      | none => lookupKV d k := by
  induction o generalizing d with
  | nil => simp [dictUpdate, lookupKV]
  | cons kv t ih =>
    have hstep : dictUpdate d (kv :: t) = dictUpdate (updKV d kv.1 kv.2) t := rfl
    rw [hstep, ih, List.reverse_cons, lookupKV_append, lookupKV_updKV]
    cases lookupKV t.reverse k with
    | some v => rfl
    | none =>
      by_cases h : kv.1 = k <;> simp [lookupKV, h]

theorem lookupKV_mergedKvs_aux (os : List (List (List Char × J)))
    (d : List (List Char × J)) (k : List Char) :
    lookupKV (os.foldl dictUpdate d) k =
      os.foldl
        (fun acc o =>
          match lookupKV o.reverse k with
          | some v => some v
          | none => acc)
        (lookupKV d k) := by
  induction os generalizing d with
  | nil => simp
  | cons o t ih =>
    simp only [List.foldl_cons]
    rw [ih, lookupKV_dictUpdate]

theorem lookupKV_mergedKvs (os : List (List (List Char × J))) (k : List Char) :
    lookupKV (mergedKvs os) k = lastWins os k := by
  unfold mergedKvs lastWins
  rw [lookupKV_mergedKvs_aux]
  rfl

/-! ## Characterization of the per-line parse loop -/

theorem loadsAll_eq_some (ls : List (List Char)) (objs : List J) :
    loadsAll ls = some objs ↔
      ((∀ l ∈ ls, (loads l).isSome) ∧
       objs = ls.map (fun l => (loads l).getD J.null)) := by
  induction ls generalizing objs with
  | nil => simp [loadsAll]
  | cons hd t ih =>
    constructor
    · intro hm
      unfold loadsAll at hm
      cases h : loads hd with
      | none => rw [h] at hm; cases hm
      | some v =>
        rw [h] at hm
        cases ht : loadsAll t with
        | none => rw [ht] at hm; cases hm
        | some vs =>
          rw [ht] at hm
          obtain ⟨hall, hmap⟩ := (ih vs).mp ht
          cases hm
          refine ⟨?_, ?_⟩
          · intro l hl
            rcases List.mem_cons.mp hl with h1 | h2
            · subst h1; rw [h]; rfl
            · exact hall l h2
          · simp [h, ← hmap]
    · rintro ⟨hall, hmap⟩
      have hhd : (loads hd).isSome := hall hd (List.mem_cons_self hd t)
      cases h : loads hd with
      | none => rw [h] at hhd; cases hhd
      | some v =>
        have ht : loadsAll t = some (t.map fun l => (loads l).getD J.null) :=
          (ih _).mpr ⟨fun l hl => hall l (List.mem_cons_of_mem hd hl), rfl⟩
        unfold loadsAll
        rw [h, ht, hmap]
        simp [h]

/-! ## Claim theorems -/

/-- C1 counterexample: on the input `{"a":1} garbage {"b":2}` the
extraction stage keeps only `{"b":2}`; the fragment `{"a":1}` is not
extracted (its boundary character is `g`), refuting the claim that both
fragments are extracted. -/
theorem c1_counterexample :
    extractJsonObjects (cleanText false exBoundary) = [objB2] ∧
    objA1 ∉ extractJsonObjects (cleanText false exBoundary) ∧
    robust_parse_json exBoundary false false = Except.ok objB2 := by decide

/-- C1 amended: the extractor implements exactly the stated boundary
rule — a decoded fragment whose following first non-whitespace character
is outside `, ] } > \n \r` (and not end-of-input) is discarded and the
cursor advances one character; an accepted fragment is kept and the scan
resumes after it.  Consequently `{"a":1} garbage {"b":2}` yields only
`{"b":2}`. -/
theorem c1_boundary_rule :
    (∀ (src : List Char) (fuel : Nat) (r : List Char) (v : J) (rem : List Char),
        findBrace src = some r → rawDecode r = some (v, rem) →
        allowedBoundary (lstripF rem) = false →
        extractLoop (fuel + 1) src = extractLoop fuel (r.drop 1)) ∧
    (∀ (src : List Char) (fuel : Nat) (r : List Char) (v : J) (rem : List Char),
        findBrace src = some r → rawDecode r = some (v, rem) →
        allowedBoundary (lstripF rem) = true →
        extractLoop (fuel + 1) src = v :: extractLoop fuel rem) ∧
    robust_parse_json exBoundary false false = Except.ok objB2 := by
  refine ⟨?_, ?_, by decide⟩
  · intro src fuel r v rem hf hd hb
    simp [extractLoop, hf, hd, hb]
  · intro src fuel r v rem hf hd hb
    simp [extractLoop, hf, hd, hb]

/-- Witness for `c1_boundary_rule`: at the concrete input, the decoded
fragment `{"a":1}` (remainder of length 16) is rejected and the cursor
advances one character. -/
theorem c1_boundary_rule_witness :
    extractLoop 24 exBoundary = extractLoop 23 (exBoundary.drop 1) :=
  c1_boundary_rule.1 exBoundary 23 exBoundary objA1 (exBoundary.drop 7)
    (by decide) (by decide) (by decide)

/-- C4: with at least two fragments, `_maybe_merge` returns the shallow
merge (in encounter order, later keys overwriting, as `lastWins` states)
when `merge_dicts` is set and all fragments are dicts, and the ordered
fragment list otherwise; `{"a":1}` newline `{"b":2}` gives
`{"a":1,"b":2}` under merging and the two-element list without. -/
theorem c4_merge :
    (∀ (objs : List J) (md : Bool), 2 ≤ objs.length →
        (md && objs.all isObjJ) = true →
        maybeMerge objs md = J.obj (mergedKvs (objs.map objKvs))) ∧
    (∀ (objs : List J) (md : Bool), 2 ≤ objs.length →
        (md && objs.all isObjJ) = false →
        maybeMerge objs md = J.arr objs) ∧
    (∀ os k, lookupKV (mergedKvs os) k = lastWins os k) ∧
    (∀ (s : List Char) (md sdb : Bool) (objs : List J),
        loads (cleanText sdb s) = none →
        parseJsonLines (cleanText sdb s) = some objs →
        robust_parse_json s md sdb = Except.ok (maybeMerge objs md)) ∧
    robust_parse_json exMulti true false = Except.ok objA1B2 ∧
    robust_parse_json exMulti false false = Except.ok (J.arr [objA1, objB2]) := by
  refine ⟨?_, ?_, lookupKV_mergedKvs, robust_eq_stage2, by decide, by decide⟩
  · intro objs md hlen hcond
    match objs with
    | [] => simp at hlen
    | [o] => simp at hlen
    | a :: b :: t =>
      simp only [maybeMerge, hcond, if_true]
      rw [mergedKvs, List.foldl_map]
  · intro objs md hlen hcond
    match objs with
    | [] => simp at hlen
    | [o] => simp at hlen
    | a :: b :: t =>
      simp only [maybeMerge, hcond]
      rfl

/-- Witness for `c4_merge`: the merge branch applied to the two parsed
fragments of the concrete multi-object input. -/
theorem c4_merge_witness :
    robust_parse_json exMulti true false =
      Except.ok (maybeMerge [objA1, objB2] true) :=
  c4_merge.2.2.2.1 exMulti true false [objA1, objB2] (by decide) (by decide)

/-- C5: the JSON-Lines stage succeeds exactly when the cleaned text has
at least two stripped nonempty lines all of which parse, returning the
per-line values in order; on success (after a failed whole parse) its
result, merged by the multi-fragment rule, is what `robust_parse_json`
returns, and on failure the extraction stage decides the result. -/
theorem c5_json_lines :
    (∀ (src : List Char) (objs : List J),
        parseJsonLines src = some objs ↔
          (2 ≤ (nonEmptyLines src).length ∧
           (∀ l ∈ nonEmptyLines src, (loads l).isSome) ∧
           objs = (nonEmptyLines src).map (fun l => (loads l).getD J.null))) ∧
    (∀ (s : List Char) (md sdb : Bool) (objs : List J),
        loads (cleanText sdb s) = none →
        parseJsonLines (cleanText sdb s) = some objs →
        robust_parse_json s md sdb = Except.ok (maybeMerge objs md)) ∧
    (∀ (s : List Char) (md sdb : Bool),
        loads (cleanText sdb s) = none →
        parseJsonLines (cleanText sdb s) = none →
        robust_parse_json s md sdb = robustStep3 (cleanText sdb s) md) := by
  refine ⟨?_, robust_eq_stage2, robust_eq_stage3⟩
  intro src objs
  unfold parseJsonLines
  by_cases hlen : (nonEmptyLines src).length ≤ 1
  · simp only [hlen, if_true]
    constructor
    · intro h; cases h
    · intro h
      omega
  · simp only [hlen, if_false]
    rw [loadsAll_eq_some]
    constructor
    · intro h
      exact ⟨by omega, h.1, h.2⟩
    · intro h
      exact ⟨h.2.1, h.2.2⟩

/-- Witness for `c5_json_lines`: the concrete two-line input satisfies
the characterization and the stage-2 wiring. -/
theorem c5_json_lines_witness :
    parseJsonLines exMulti = some [objA1, objB2] :=
  (c5_json_lines.1 exMulti [objA1, objB2]).mpr
    ⟨by decide, by decide, by decide⟩

/-- C6: `robust_parse_json` fails only with the single no-JSON-found
error, and does so exactly when the whole parse, the JSON-Lines stage
and the extraction all produce nothing; being a pure function of its
input and flags it is deterministic by construction. -/
theorem c6_error_classification :
    ∀ (s : List Char) (md sdb : Bool),
      (robust_parse_json s md sdb = Except.error noJsonFoundMsg ↔
        (loads (cleanText sdb s) = none ∧
         parseJsonLines (cleanText sdb s) = none ∧
         extractJsonObjects (cleanText sdb s) = [])) ∧
      (∀ e, robust_parse_json s md sdb = Except.error e → e = noJsonFoundMsg) := by
  intro s md sdb
  generalize hL : loads (cleanText sdb s) = oL
  generalize hP : parseJsonLines (cleanText sdb s) = oP
  generalize hE : extractJsonObjects (cleanText sdb s) = oE
  cases oL with
  | some v =>
    rw [robust_eq_stage1 s md sdb v hL]
    exact ⟨⟨(fun h => by cases h), (fun h => (by cases h.1 : False).elim)⟩,
      (fun e h => by cases h)⟩
  | none =>
    cases oP with
    | some objs =>
      rw [robust_eq_stage2 s md sdb objs hL hP]
      exact ⟨⟨(fun h => by cases h), (fun h => (by cases h.2.1 : False).elim)⟩,
        (fun e h => by cases h)⟩
    | none =>
      rw [robust_eq_stage3 s md sdb hL hP]
      cases oE with
      | nil =>
        rw [robustStep3_nil (cleanText sdb s) md hE]
        exact ⟨⟨(fun _ => ⟨rfl, rfl, rfl⟩), (fun _ => rfl)⟩,
          (fun e h => by cases h; rfl)⟩
      | cons a t =>
        rw [robustStep3_cons (cleanText sdb s) md a t hE]
        exact ⟨⟨(fun h => by cases h), (fun h => (by cases h.2.2 : False).elim)⟩,
          (fun e h => by cases h)⟩

/-- Witness for `c6_error_classification`: an input with no JSON at all
is classified as the single no-JSON-found error. -/
theorem c6_error_classification_witness :
    robust_parse_json ('n' :: 'o' :: []) false false =
      Except.error noJsonFoundMsg :=
  (c6_error_classification ('n' :: 'o' :: []) false false).1.mpr
    ⟨by decide, by decide, by decide⟩

/-- C7: the outer-fence stripper leaves any input that is not entirely
wrapped in one fence unchanged (in particular fences strictly inside the
content), and the fenced `{"a":1}` block parses to `{"a":1}`. -/
theorem c7_fence :
    (∀ s, outerFenced s = false → removeMarkdownFence s = s) ∧
    robust_parse_json exFence false false = Except.ok objA1 := by
  refine ⟨?_, by decide⟩
  intro s h
  simp only [outerFenced] at h
  cases hs : startsWithL backtick3 (s.dropWhile fun c => pyWs c) with
  | false => simp [removeMarkdownFence, hs]
  | true =>
    rw [hs] at h
    simp only [Bool.true_and] at h
    cases hc : fenceClose ((((s.dropWhile fun c => pyWs c).drop 3).dropWhile
        fun c => isWordChar c).dropWhile fun c => pyWs c) with
    | some inner => rw [hc] at h; cases h
    | none => simp [removeMarkdownFence, hs, hc]

/-- Witness for `c7_fence`: an input whose fence is strictly inside the
content is returned unchanged. -/
theorem c7_fence_witness :
    removeMarkdownFence ('x' :: backtick3) = 'x' :: backtick3 :=
  c7_fence.1 ('x' :: backtick3) (by decide)

/-- C9: built without explicit arguments, the React configuration
carries `max_retries = 3` and the Parallel configuration carries
`concurrency_limit = 5`. -/
theorem c9_factory_defaults :
    (create_react_agent_default).max_retries = 3 ∧
    (create_parallel_agent_default).concurrency_limit = 5 :=
  ⟨rfl, rfl⟩

/-! ## Line-comment scan lemmas -/

theorem blockedOcc_cons (prev : Option Char) (c : Char) (l : List Char) :
    blockedOcc prev (c :: l) = blockedOcc (some c) l := by
  cases l with
  | nil => rfl
  | cons d t =>
    unfold blockedOcc
    rw [List.getLast?_cons_cons]
    cases h : (d :: t).getLast? with
    | none => simp at h
    | some x => rfl

theorem stripLineOne_id (s : List Char) : ∀ (prev : Option Char),
    (∀ i, i < s.length → startsWithL dblSlash (s.drop i) = true →
      blockedOcc prev (s.take i) = true) →
    stripLineOne prev s = s := by
  induction s with
  | nil => intro prev _; rfl
  | cons c t ih =>
    intro prev h
    have htrans : ∀ i, i < t.length → startsWithL dblSlash (t.drop i) = true →
        blockedOcc (some c) (t.take i) = true := by
      intro i hi hsw
      have := h (i + 1) (by simpa using Nat.succ_lt_succ hi)
        (by simpa [List.drop_succ_cons] using hsw)
      simpa [List.take_succ_cons, blockedOcc_cons] using this
    have hcond : ((c == '/' && headSlash t) && !blockedBefore prev) = false := by
      by_cases hc : (c == '/' && headSlash t) = true
      · have hsw : startsWithL dblSlash ((c :: t).drop 0) = true := by
          cases t with
          | nil => simp [headSlash] at hc
          | cons d t2 =>
            simp [headSlash] at hc
            simp [dblSlash, startsWithL, hc.1, hc.2]
        have hb := h 0 (by simp) hsw
        have hb2 : blockedBefore prev = true := by simpa [blockedOcc] using hb
        rw [hc, hb2]
        decide
      · simp only [Bool.not_eq_true] at hc
        rw [hc, Bool.false_and]
    simp only [stripLineOne, hcond, Bool.false_eq_true, if_false]
    rw [ih (some c) htrans]

theorem stripLineOne_drop (a : List Char) : ∀ (b : List Char) (prev : Option Char),
    (∀ i, i < a.length →
      startsWithL dblSlash ((a ++ dblSlash ++ b).drop i) = true →
      blockedOcc prev ((a ++ dblSlash ++ b).take i) = true) →
    blockedOcc prev a = false →
    stripLineOne prev (a ++ dblSlash ++ b) = a := by
  induction a with
  | nil =>
    intro b prev _ hb
    have hb2 : blockedBefore prev = false := by simpa [blockedOcc] using hb
    show stripLineOne prev ('/' :: '/' :: b) = []
    simp [stripLineOne, headSlash, hb2]
  | cons c a2 ih =>
    intro b prev h hb
    show stripLineOne prev (c :: (a2 ++ dblSlash ++ b)) = c :: a2
    have htrans : ∀ i, i < a2.length →
        startsWithL dblSlash ((a2 ++ dblSlash ++ b).drop i) = true →
        blockedOcc (some c) ((a2 ++ dblSlash ++ b).take i) = true := by
      intro i hi hsw
      have := h (i + 1) (by simpa using Nat.succ_lt_succ hi)
        (by simpa [List.cons_append, List.drop_succ_cons] using hsw)
      simpa [List.cons_append, List.take_succ_cons, blockedOcc_cons] using this
    have hb2 : blockedOcc (some c) a2 = false := by
      rw [← blockedOcc_cons prev]
      exact hb
    have hcond :
        ((c == '/' && headSlash (a2 ++ dblSlash ++ b)) && !blockedBefore prev) = false := by
      by_cases hc : (c == '/' && headSlash (a2 ++ dblSlash ++ b)) = true
      · have hsw : startsWithL dblSlash ((c :: (a2 ++ dblSlash ++ b)).drop 0) = true := by
          cases hspl : a2 ++ dblSlash ++ b with
          | nil => rw [hspl] at hc; simp [headSlash] at hc
          | cons d t2 =>
            rw [hspl] at hc
            simp [headSlash] at hc
            simp [hspl, dblSlash, startsWithL, hc.1, hc.2]
        have hb0 := h 0 (by simp) (by simpa [List.cons_append] using hsw)
        have hbp : blockedBefore prev = true := by simpa [blockedOcc] using hb0
        rw [hc, hbp]
        decide
      · simp only [Bool.not_eq_true] at hc
        rw [hc, Bool.false_and]
    simp only [stripLineOne, hcond, Bool.false_eq_true, if_false]
    rw [ih b (some c) htrans hb2]

theorem splitOnNl_no_nl (s : List Char) (h : '\n' ∈ s → False) :
    splitOnNl s = [s] := by
  induction s with
  | nil => rfl
  | cons c t ih =>
    have hc : ¬ c = '\n' := fun hh => h (by simp [hh])
    have ht := ih (fun hm => h (List.mem_cons_of_mem c hm))
    simp [splitOnNl, hc, ht]

theorem stripLineComments_no_nl (s : List Char) (h : '\n' ∈ s → False) :
    stripLineComments s = stripLineOne none s := by
  unfold stripLineComments
  rw [splitOnNl_no_nl s h]
  rfl

/-- C2 counterexample: in the valid document `{"a":"x//y"}` the `//`
sits inside a quoted string yet is removed by the comment stripper
(its preceding character is `x`), leaving an unparseable prefix, so the
whole parse fails with the no-JSON-found error. -/
theorem c2_counterexample :
    stripJsonComments exSlashInStr = "\x7b\x22a\x22:\x22x".toList ∧
    stripJsonComments exSlashInStr ≠ exSlashInStr ∧
    robust_parse_json exSlashInStr false false = Except.error noJsonFoundMsg := by
  decide

/-- C2 amended: the comment stripper removes block comments and removes
from each line the first `//` (with everything after it) that is not
immediately preceded by `:`, `\x22` or `\x27`; occurrences guarded by
those characters, in particular a URL's `://`, are kept, but a `//`
inside a quoted string is removed whenever its preceding character is
any other character.  The two universal parts state, for newline-free
text, preservation when every `//` occurrence is guarded, and removal of
the first unguarded occurrence onward. -/
theorem c2_comment_stripping :
    stripJsonComments exBlockComment = "\x7b\x22a\x22:1\x7d".toList ∧
    stripJsonComments exUrlInStr = exUrlInStr ∧
    stripJsonComments exSlashInStr = "\x7b\x22a\x22:\x22x".toList ∧
    (∀ s : List Char, ('\n' ∈ s → False) →
      (∀ i, i < s.length → startsWithL dblSlash (s.drop i) = true →
        blockedOcc none (s.take i) = true) →
      stripLineComments s = s) ∧
    (∀ a b : List Char, ('\n' ∈ a ++ dblSlash ++ b → False) →
      (∀ i, i < a.length →
        startsWithL dblSlash ((a ++ dblSlash ++ b).drop i) = true →
        blockedOcc none ((a ++ dblSlash ++ b).take i) = true) →
      blockedOcc none a = false →
      stripLineComments (a ++ dblSlash ++ b) = a) := by
  refine ⟨by decide, by decide, by decide, ?_, ?_⟩
  · intro s hnl h
    rw [stripLineComments_no_nl s hnl]
    exact stripLineOne_id s none h
  · intro a b hnl h hb
    rw [stripLineComments_no_nl _ hnl]
    exact stripLineOne_drop a b none h hb

/-- Witness for `c2_comment_stripping`: the guarded-occurrence clause
applied to the concrete URL-bearing document leaves it unchanged. -/
theorem c2_comment_stripping_witness :
    stripLineComments exUrlInStr = exUrlInStr :=
  c2_comment_stripping.2.2.2.1 exUrlInStr (by decide) (by decide)

/-- C10: `robust_parse_json` is not conservative over valid JSON: the
document `{"a":",}"}` has standard reading `{"a": ",}"}` but the
textual trailing-comma cleanup turns it into `{"a":"}"}`, so a
different value is returned. -/
theorem c10_not_conservative :
    loads exCommaBrace = some (J.obj [(['a'], J.str [',', '\x7d'])]) ∧
    robust_parse_json exCommaBrace false false =
      Except.ok (J.obj [(['a'], J.str ['\x7d'])]) ∧
    J.obj [(['a'], J.str [',', '\x7d'])] ≠ J.obj [(['a'], J.str ['\x7d'])] := by
  decide

/-! ## Generic replacement lemmas over token strings -/

theorem startsWithL_append_self (l s : List Char) : startsWithL l (l ++ s) = true := by
  induction l with
  | nil => rfl
  | cons c t ih => simp [startsWithL, ih]

theorem startsWithL_take (pat : List Char) : ∀ (u s : List Char),
    startsWithL (pat.take u.length) u = false →
    startsWithL pat (u ++ s) = false := by
  induction pat with
  | nil =>
    intro u s h
    simp [startsWithL] at h
  | cons p ps ih =>
    intro u s h
    cases u with
    | nil => simp [startsWithL] at h
    | cons c u2 =>
      rw [List.length_cons, List.take_succ_cons] at h
      show startsWithL (p :: ps) (c :: (u2 ++ s)) = false
      cases hpc : p == c with
      | false => simp [startsWithL, hpc]
      | true =>
        rw [startsWithL, hpc, Bool.true_and] at h
        simp [startsWithL, hpc, ih u2 s h]

theorem startsWithL_append_both (u v s : List Char) :
    startsWithL (u ++ v) (u ++ s) = startsWithL v s := by
  induction u with
  | nil => rfl
  | cons c t ih => simp [startsWithL, ih]

theorem dropAppendLe (x s : List Char) : ∀ (i : Nat), i ≤ x.length →
    (x ++ s).drop i = x.drop i ++ s := by
  induction x with
  | nil =>
    intro i hi
    have h0 : i = 0 := Nat.le_zero.mp (by simpa using hi)
    subst h0
    rfl
  | cons c t ih =>
    intro i hi
    cases i with
    | zero => rfl
    | succ j =>
      show (t ++ s).drop j = t.drop j ++ s
      exact ih j (by simpa using hi)

theorem noStart_spec (pat x : List Char) (m : Nat)
    (h : noStartBUpTo pat x m = true) :
    ∀ (s : List Char) (i : Nat), i < x.length - m →
      startsWithL pat ((x ++ s).drop i) = false := by
  intro s i hi
  have hx : i ≤ x.length := by omega
  rw [dropAppendLe x s i hx]
  apply startsWithL_take
  have hlen : (x.drop i).length = x.length - i := List.length_drop i x
  rw [hlen]
  unfold noStartBUpTo at h
  have := List.all_eq_true.mp h i (List.mem_range.mpr hi)
  simpa using this

theorem noStart_spec0 (pat x : List Char) (h : noStartB pat x = true) :
    ∀ (s : List Char) (i : Nat), i < x.length →
      startsWithL pat ((x ++ s).drop i) = false := by
  intro s i hi
  exact noStart_spec pat x 0 h s i (by omega)

theorem splitFirst_prefix (pat s : List Char) (hpat : pat ≠ []) :
    splitFirst pat (pat ++ s) = some ([], s) := by
  cases pat with
  | nil => exact absurd rfl hpat
  | cons p ps =>
    have h1 : startsWithL (p :: ps) (p :: (ps ++ s)) = true :=
      startsWithL_append_self (p :: ps) s
    show splitFirst (p :: ps) (p :: (ps ++ s)) = some ([], s)
    unfold splitFirst
    rw [h1]
    simp [List.drop_succ_cons, List.drop_left]

theorem splitFirst_prepend (pat : List Char) : ∀ (x s : List Char),
    (∀ i, i < x.length → startsWithL pat ((x ++ s).drop i) = false) →
    splitFirst pat (x ++ s) =
      match splitFirst pat s with
      | none => none
      | some (b, a) => some (x ++ b, a) := by
  intro x
  induction x with
  | nil =>
    intro s _
    cases h : splitFirst pat s with
    | none => simpa using h
    | some q =>
      obtain ⟨b, a⟩ := q
      simpa using h
  | cons c x2 ih =>
    intro s h
    have h0 : startsWithL pat (c :: (x2 ++ s)) = false := by
      have := h 0 (by simp)
      simpa using this
    have htrans : ∀ i, i < x2.length →
        startsWithL pat ((x2 ++ s).drop i) = false := by
      intro i hi
      have := h (i + 1) (by simp; omega)
      simpa [List.drop_succ_cons] using this
    cases hs : splitFirst pat s with
    | none =>
      show splitFirst pat (c :: (x2 ++ s)) = none
      unfold splitFirst
      rw [h0, Bool.false_and, if_neg (by simp), ih s htrans, hs]
    | some q =>
      obtain ⟨b, a⟩ := q
      show splitFirst pat (c :: (x2 ++ s)) = some (c :: (x2 ++ b), a)
      unfold splitFirst
      rw [h0, Bool.false_and, if_neg (by simp), ih s htrans, hs]

theorem replaceF_nil (pat rep : List Char) : ∀ fuel,
    replaceF pat rep fuel [] = [] := by
  intro fuel
  cases fuel <;> rfl

theorem replaceF_head_match (pat rep s : List Char) (fuel : Nat) (hpat : pat ≠ []) :
    replaceF pat rep (fuel + 1) (pat ++ s) = rep ++ replaceF pat rep fuel s := by
  rw [replaceF, splitFirst_prefix pat s hpat]
  rfl

theorem replaceF_prepend (pat rep x s : List Char) (fuel : Nat)
    (h : ∀ i, i < x.length → startsWithL pat ((x ++ s).drop i) = false) :
    replaceF pat rep fuel (x ++ s) = x ++ replaceF pat rep fuel s := by
  cases fuel with
  | zero => rfl
  | succ f2 =>
    show replaceF pat rep (f2 + 1) (x ++ s) = x ++ replaceF pat rep (f2 + 1) s
    unfold replaceF
    rw [splitFirst_prepend pat x s h]
    cases hs : splitFirst pat s with
    | none => rfl
    | some q =>
      obtain ⟨b, a⟩ := q
      simp [List.append_assoc]

theorem validBToks_cons_elim {t : BTok} {rest : List BTok}
    (hv : validBToks (t :: rest) = true) :
    validBTok t = true ∧ bareOk t rest = true ∧ validBToks rest = true := by
  have h2 := hv
  unfold validBToks at h2
  simp only [Bool.and_eq_true] at h2
  exact ⟨h2.1.1, h2.1.2, h2.2⟩

theorem replace_flat (pat rep : List Char) (hpat : pat ≠ [])
    (f g : BTok → List Char)
    (hstep : ∀ t rest, validBToks (t :: rest) = true →
      (f t = pat ∧ g t = rep) ∨
      (g t = f t ∧ ∀ i, i < (f t).length →
        startsWithL pat ((f t ++ flatBToks f rest).drop i) = false)) :
    ∀ ts, validBToks ts = true → ∀ fuel, ts.length ≤ fuel →
      replaceF pat rep fuel (flatBToks f ts) = flatBToks g ts := by
  intro ts
  induction ts with
  | nil =>
    intro _ fuel _
    exact replaceF_nil pat rep fuel
  | cons t rest ih =>
    intro hv fuel hfuel
    have hvr : validBToks rest = true := (validBToks_cons_elim hv).2.2
    rcases hstep t rest hv with ⟨hf, hg⟩ | ⟨hg, hns⟩
    · cases fuel with
      | zero => simp at hfuel
      | succ f2 =>
        show replaceF pat rep (f2 + 1) (f t ++ flatBToks f rest) =
          g t ++ flatBToks g rest
        rw [hf, hg, replaceF_head_match pat rep _ f2 hpat,
          ih hvr f2 (by simp at hfuel; omega)]
    · show replaceF pat rep fuel (f t ++ flatBToks f rest) =
        g t ++ flatBToks g rest
      rw [replaceF_prepend pat rep (f t) _ fuel hns, hg,
        ih hvr fuel (by simp at hfuel; omega)]

theorem flatBToks_length_ge (f : BTok → List Char) (hne : ∀ t, f t ≠ []) :
    ∀ ts : List BTok, ts.length ≤ (flatBToks f ts).length := by
  intro ts
  induction ts with
  | nil => simp [flatBToks]
  | cons t rest ih =>
    show rest.length + 1 ≤ (f t ++ flatBToks f rest).length
    rw [List.length_append]
    have h1 : 1 ≤ (f t).length := List.length_pos.mpr (hne t)
    omega

theorem replaceAll_flat (pat rep : List Char) (hpat : pat ≠ [])
    (f g : BTok → List Char) (hne : ∀ t, f t ≠ [])
    (hstep : ∀ t rest, validBToks (t :: rest) = true →
      (f t = pat ∧ g t = rep) ∨
      (g t = f t ∧ ∀ i, i < (f t).length →
        startsWithL pat ((f t ++ flatBToks f rest).drop i) = false))
    (ts : List BTok) (hv : validBToks ts = true) :
    replaceAll (flatBToks f ts) pat rep = flatBToks g ts := by
  unfold replaceAll
  apply replace_flat pat rep hpat f g hstep ts hv
  have := flatBToks_length_ge f hne ts
  omega

/-! ## Concrete facts about the escape alphabet and the sentinels -/

theorem escPair_ne_nil (c : Char) : escPair c ≠ [] := by simp [escPair]

theorem sentinel_ne_nil (w : List Char) : sentinel w ≠ [] := by simp [sentinel]

theorem btokProtImg_ne_nil (k : Nat) (t : BTok) : btokProtImg k t ≠ [] := by
  cases t with
  | esc c =>
    show (if escIdx c < k then sentinel (sentWord c) else ['\\', c]) ≠ []
    by_cases h : escIdx c < k
    · rw [if_pos h]
      exact sentinel_ne_nil _
    · rw [if_neg h]
      simp
  | bare => simp [btokProtImg]
  | chr c => simp [btokProtImg]

theorem btokRestImg_ne_nil (k : Nat) (t : BTok) : btokRestImg k t ≠ [] := by
  cases t with
  | esc c =>
    show (if escIdx c < k then ['\\', c] else sentinel (sentWord c)) ≠ []
    by_cases h : escIdx c < k
    · rw [if_pos h]
      simp
    · rw [if_neg h]
      exact sentinel_ne_nil _
  | bare => simp [btokRestImg]
  | chr c => simp [btokRestImg]

theorem memE (a : Char) (h : escChars.contains a = true) : a ∈ escChars := by
  have h2 : escChars.elem a = true := h
  exact List.elem_iff.mp h2

theorem escIdx_lt8 (c : Char) : escIdx c < 8 := by
  unfold escIdx
  split_ifs <;> omega

theorem escIdx_inj : ∀ a ∈ escChars, ∀ b ∈ escChars, escIdx a = escIdx b → a = b := by
  decide

theorem noStartB_pair_sent : ∀ ck ∈ escChars, ∀ c ∈ escChars,
    noStartB (escPair ck) (sentinel (sentWord c)) = true := by decide

theorem noStartB_pair_pair : ∀ ck ∈ escChars, ∀ c ∈ escChars,
    ¬ c = ck → escIdx ck ≤ escIdx c →
    noStartB (escPair ck) (escPair c) = true := by decide

theorem noStartB_bs_sent : ∀ c ∈ escChars,
    noStartB ['\\'] (sentinel (sentWord c)) = true := by decide

theorem noStartB_sent_pair : ∀ ck ∈ escChars, ∀ c ∈ escChars,
    noStartB (sentinel (sentWord ck)) (escPair c) = true := by decide

theorem noStartB_sent_dbl : ∀ ck ∈ escChars,
    noStartB (sentinel (sentWord ck)) ['\\', '\\'] = true := by decide

theorem noStartBUpTo_sent_sent : ∀ ck ∈ escChars, ∀ c ∈ escChars, ¬ c = ck →
    noStartBUpTo (sentinel (sentWord ck)) (sentinel (sentWord c)) 1 = true := by decide

theorem sentWord_head_ok : ∀ ck ∈ escChars,
    (match sentWord ck with
     | [] => false
     | w0 :: _ => w0.isUpper && (w0 != '\x00' && w0 != '\\')) = true := by decide

theorem ne_of_contains_not (a b : Char) (h1 : escChars.contains a = true)
    (h2 : escChars.contains b = false) : (a == b) = false := by
  refine beq_eq_false_iff_ne.mpr ?_
  intro he
  subst he
  rw [h1] at h2
  cases h2

theorem startsWithL_word_head (w tail2 : List Char)
    (hw : (match w with
           | [] => false
           | w0 :: _ => w0.isUpper && (w0 != '\x00' && w0 != '\\')) = true)
    (c2 : Char) (s2 : List Char)
    (hc2 : c2 = '\x00' ∨ c2 = '\\' ∨ c2.isUpper = false) :
    startsWithL (w ++ tail2) (c2 :: s2) = false := by
  cases w with
  | nil => simp at hw
  | cons w0 wr =>
    have hw2 : w0.isUpper = true ∧ ¬ w0 = '\x00' ∧ ¬ w0 = '\\' := by
      simpa [Bool.and_eq_true] using hw
    show startsWithL (w0 :: (wr ++ tail2)) (c2 :: s2) = false
    have hne : (w0 == c2) = false := by
      rcases hc2 with rfl | rfl | hupf
      · exact beq_eq_false_iff_ne.mpr hw2.2.1
      · exact beq_eq_false_iff_ne.mpr hw2.2.2
      · refine beq_eq_false_iff_ne.mpr ?_
        intro he
        rw [← he, hw2.1] at hupf
        cases hupf
    simp [startsWithL, hne]

theorem drop_sentinel_last (w s : List Char) :
    (sentinel w ++ s).drop (w.length + 1) = '\x00' :: s := by
  have h1 : sentinel w ++ s = '\x00' :: (w ++ ('\x00' :: s)) := by
    simp [sentinel]
  rw [h1, List.drop_succ_cons]
  have h2 : w.length = (w : List Char).length := rfl
  exact List.drop_left w ('\x00' :: s)

/-! ## Head shape of a token string -/

theorem headFlatRest (k : Nat) (rest : List BTok) (hv : validBToks rest = true) :
    flatBToks (btokRestImg k) rest = [] ∨
    (∃ s2, flatBToks (btokRestImg k) rest = '\x00' :: s2) ∨
    (∃ s2, flatBToks (btokRestImg k) rest = '\\' :: s2) ∨
    (∃ c2 s2, flatBToks (btokRestImg k) rest = c2 :: s2 ∧ plainTokChar c2 = true) := by
  cases rest with
  | nil => exact Or.inl rfl
  | cons t r2 =>
    have hvt : validBTok t = true := (validBToks_cons_elim hv).1
    cases t with
    | esc c =>
      by_cases hk : escIdx c < k
      · refine Or.inr (Or.inr (Or.inl ⟨c :: flatBToks (btokRestImg k) r2, ?_⟩))
        show btokRestImg k (BTok.esc c) ++ flatBToks (btokRestImg k) r2 = _
        rw [show btokRestImg k (BTok.esc c) = ['\\', c] from by
          simp [btokRestImg, hk]]
        rfl
      · refine Or.inr (Or.inl
          ⟨(sentWord c ++ ['\x00']) ++ flatBToks (btokRestImg k) r2, ?_⟩)
        show btokRestImg k (BTok.esc c) ++ flatBToks (btokRestImg k) r2 = _
        rw [show btokRestImg k (BTok.esc c) = sentinel (sentWord c) from by
          simp [btokRestImg, hk]]
        simp [sentinel]
    | bare =>
      exact Or.inr (Or.inr (Or.inl ⟨'\\' :: flatBToks (btokRestImg k) r2, rfl⟩))
    | chr c =>
      refine Or.inr (Or.inr (Or.inr ⟨c, flatBToks (btokRestImg k) r2, rfl, ?_⟩))
      simpa [validBTok] using hvt

theorem headFlatAfterBare (f : BTok → List Char) (hchr : ∀ c, f (BTok.chr c) = [c])
    (rest : List BTok) (hok : nextOkAfterBare rest = true) :
    flatBToks f rest = [] ∨
    (∃ c2 s2, flatBToks f rest = c2 :: s2 ∧ escChars.contains c2 = false) := by
  cases rest with
  | nil => exact Or.inl rfl
  | cons t r2 =>
    cases t with
    | esc c => simp [nextOkAfterBare] at hok
    | bare => simp [nextOkAfterBare] at hok
    | chr c =>
      refine Or.inr ⟨c, flatBToks f r2, ?_, ?_⟩
      · show f (BTok.chr c) ++ flatBToks f r2 = _
        rw [hchr c]
        rfl
      · simpa [nextOkAfterBare] using hok

/-! ## The step conditions of the seventeen replacements -/

theorem hstepProt (ck : Char) (k : Nat) (hck : escChars.contains ck = true)
    (hk : escIdx ck = k) :
    ∀ t rest, validBToks (t :: rest) = true →
      (btokProtImg k t = escPair ck ∧
        btokProtImg (k + 1) t = sentinel (sentWord ck)) ∨
      (btokProtImg (k + 1) t = btokProtImg k t ∧
        ∀ i, i < (btokProtImg k t).length →
          startsWithL (escPair ck)
            ((btokProtImg k t ++ flatBToks (btokProtImg k) rest).drop i) = false) := by
  intro t rest hv
  obtain ⟨hvt, hbo, hvr⟩ := validBToks_cons_elim hv
  cases t with
  | esc c =>
    have hcc : escChars.contains c = true := by simpa [validBTok] using hvt
    by_cases hceq : c = ck
    · subst hceq
      left
      constructor
      · show (if escIdx c < k then sentinel (sentWord c) else ['\\', c]) = escPair c
        rw [if_neg (by omega)]
        rfl
      · show (if escIdx c < k + 1 then sentinel (sentWord c) else ['\\', c]) = _
        rw [if_pos (by omega)]
    · right
      have hidx : ¬ escIdx c = k := fun he =>
        hceq (escIdx_inj c (memE c hcc) ck (memE ck hck) (by rw [he, hk]))
      constructor
      · show (if escIdx c < k + 1 then sentinel (sentWord c) else ['\\', c]) =
          (if escIdx c < k then sentinel (sentWord c) else ['\\', c])
        by_cases hlt : escIdx c < k
        · rw [if_pos (by omega), if_pos hlt]
        · rw [if_neg (by omega), if_neg hlt]
      · intro i hi
        by_cases hlt : escIdx c < k
        · have himg : btokProtImg k (BTok.esc c) = sentinel (sentWord c) := by
            simp [btokProtImg, hlt]
          rw [himg] at hi ⊢
          exact noStart_spec0 _ _ (noStartB_pair_sent ck (memE ck hck) c (memE c hcc)) _ i hi
        · have himg : btokProtImg k (BTok.esc c) = escPair c := by
            simp [btokProtImg, hlt, escPair]
          rw [himg] at hi ⊢
          exact noStart_spec0 _ _
            (noStartB_pair_pair ck (memE ck hck) c (memE c hcc) hceq (by omega)) _ i hi
  | bare =>
    right
    refine ⟨rfl, ?_⟩
    intro i hi
    have hi0 : i = 0 := by
      simpa [btokProtImg] using hi
    subst hi0
    have hok : nextOkAfterBare rest = true := by simpa [bareOk] using hbo
    have hgoal : startsWithL [ck] (flatBToks (btokProtImg k) rest) = false := by
      rcases headFlatAfterBare (btokProtImg k) (fun c => rfl) rest hok with
        hnil | ⟨c2, s2, he, hnc⟩
      · rw [hnil]
        rfl
      · rw [he]
        simp [startsWithL, ne_of_contains_not ck c2 hck hnc]
    show startsWithL (escPair ck)
        ((btokProtImg k BTok.bare ++ flatBToks (btokProtImg k) rest).drop 0) = false
    simp [btokProtImg, escPair, startsWithL, hgoal]
  | chr c =>
    right
    refine ⟨rfl, ?_⟩
    intro i hi
    have hi0 : i = 0 := by
      simpa [btokProtImg] using hi
    subst hi0
    have hp : plainTokChar c = true := by simpa [validBTok] using hvt
    have hp2 : (¬ c = '\\' ∧ ¬ c = '\x00') ∧ c.isUpper = false := by
      simpa [plainTokChar, Bool.and_eq_true] using hp
    have hcn : (('\\' : Char) == c) = false :=
      beq_eq_false_iff_ne.mpr (fun he => hp2.1.1 he.symm)
    show startsWithL (escPair ck)
        ((btokProtImg k (BTok.chr c) ++ flatBToks (btokProtImg k) rest).drop 0) = false
    simp [btokProtImg, escPair, startsWithL, hcn]

theorem hstepDouble :
    ∀ t rest, validBToks (t :: rest) = true →
      (btokProtImg 8 t = ['\\'] ∧ btokRestImg 0 t = ['\\', '\\']) ∨
      (btokRestImg 0 t = btokProtImg 8 t ∧
        ∀ i, i < (btokProtImg 8 t).length →
          startsWithL ['\\']
            ((btokProtImg 8 t ++ flatBToks (btokProtImg 8) rest).drop i) = false) := by
  intro t rest hv
  obtain ⟨hvt, hbo, hvr⟩ := validBToks_cons_elim hv
  cases t with
  | esc c =>
    have hcc : escChars.contains c = true := by simpa [validBTok] using hvt
    right
    have himg8 : btokProtImg 8 (BTok.esc c) = sentinel (sentWord c) := by
      simp [btokProtImg, escIdx_lt8 c]
    have himg0 : btokRestImg 0 (BTok.esc c) = sentinel (sentWord c) := by
      simp [btokRestImg]
    refine ⟨by rw [himg8, himg0], ?_⟩
    intro i hi
    rw [himg8] at hi ⊢
    exact noStart_spec0 _ _ (noStartB_bs_sent c (memE c hcc)) _ i hi
  | bare => exact Or.inl ⟨rfl, rfl⟩
  | chr c =>
    right
    refine ⟨rfl, ?_⟩
    intro i hi
    have hi0 : i = 0 := by
      simpa [btokProtImg] using hi
    subst hi0
    have hp : plainTokChar c = true := by simpa [validBTok] using hvt
    have hp2 : (¬ c = '\\' ∧ ¬ c = '\x00') ∧ c.isUpper = false := by
      simpa [plainTokChar, Bool.and_eq_true] using hp
    have hcn : (('\\' : Char) == c) = false :=
      beq_eq_false_iff_ne.mpr (fun he => hp2.1.1 he.symm)
    show startsWithL ['\\']
        ((btokProtImg 8 (BTok.chr c) ++ flatBToks (btokProtImg 8) rest).drop 0) = false
    simp [btokProtImg, startsWithL, hcn]

theorem hstepRest (ck : Char) (k : Nat) (hck : escChars.contains ck = true)
    (hk : escIdx ck = k) :
    ∀ t rest, validBToks (t :: rest) = true →
      (btokRestImg k t = sentinel (sentWord ck) ∧
        btokRestImg (k + 1) t = escPair ck) ∨
      (btokRestImg (k + 1) t = btokRestImg k t ∧
        ∀ i, i < (btokRestImg k t).length →
          startsWithL (sentinel (sentWord ck))
            ((btokRestImg k t ++ flatBToks (btokRestImg k) rest).drop i) = false) := by
  intro t rest hv
  obtain ⟨hvt, hbo, hvr⟩ := validBToks_cons_elim hv
  cases t with
  | esc c =>
    have hcc : escChars.contains c = true := by simpa [validBTok] using hvt
    by_cases hceq : c = ck
    · subst hceq
      left
      constructor
      · show (if escIdx c < k then ['\\', c] else sentinel (sentWord c)) = _
        rw [if_neg (by omega)]
      · show (if escIdx c < k + 1 then ['\\', c] else sentinel (sentWord c)) = _
        rw [if_pos (by omega)]
        rfl
    · right
      have hidx : ¬ escIdx c = k := fun he =>
        hceq (escIdx_inj c (memE c hcc) ck (memE ck hck) (by rw [he, hk]))
      constructor
      · show (if escIdx c < k + 1 then ['\\', c] else sentinel (sentWord c)) =
          (if escIdx c < k then ['\\', c] else sentinel (sentWord c))
        by_cases hlt : escIdx c < k
        · rw [if_pos (by omega), if_pos hlt]
        · rw [if_neg (by omega), if_neg hlt]
      · intro i hi
        by_cases hlt : escIdx c < k
        · have himg : btokRestImg k (BTok.esc c) = escPair c := by
            simp [btokRestImg, hlt, escPair]
          rw [himg] at hi ⊢
          exact noStart_spec0 _ _ (noStartB_sent_pair ck (memE ck hck) c (memE c hcc)) _ i hi
        · have himg : btokRestImg k (BTok.esc c) = sentinel (sentWord c) := by
            simp [btokRestImg, hlt]
          rw [himg] at hi ⊢
          have hlen : (sentinel (sentWord c)).length = (sentWord c).length + 2 := by
            simp [sentinel]
          by_cases hlast : i < (sentWord c).length + 1
          · exact noStart_spec _ _ 1
              (noStartBUpTo_sent_sent ck (memE ck hck) c (memE c hcc) hceq) _ i (by omega)
          · have hieq : i = (sentWord c).length + 1 := by omega
            subst hieq
            rw [drop_sentinel_last (sentWord c) (flatBToks (btokRestImg k) rest)]
            show startsWithL ('\x00' :: (sentWord ck ++ ['\x00']))
              ('\x00' :: flatBToks (btokRestImg k) rest) = false
            have htail : startsWithL (sentWord ck ++ ['\x00'])
                (flatBToks (btokRestImg k) rest) = false := by
              rcases headFlatRest k rest hvr with
                hnil | ⟨s2, he⟩ | ⟨s2, he⟩ | ⟨c2, s2, he, hpc⟩
              · rw [hnil]
                cases hws : sentWord ck with
                | nil => rfl
                | cons w0 wr => rfl
              · rw [he]
                exact startsWithL_word_head _ _ (sentWord_head_ok ck (memE ck hck)) _ _
                  (Or.inl rfl)
              · rw [he]
                exact startsWithL_word_head _ _ (sentWord_head_ok ck (memE ck hck)) _ _
                  (Or.inr (Or.inl rfl))
              · rw [he]
                have hpc2 : (¬ c2 = '\\' ∧ ¬ c2 = '\x00') ∧ c2.isUpper = false := by
                  simpa [plainTokChar, Bool.and_eq_true] using hpc
                exact startsWithL_word_head _ _ (sentWord_head_ok ck (memE ck hck)) _ _
                  (Or.inr (Or.inr hpc2.2))
            simp [startsWithL, htail]
  | bare =>
    right
    refine ⟨rfl, ?_⟩
    intro i hi
    rw [show btokRestImg k BTok.bare = ['\\', '\\'] from rfl] at hi ⊢
    exact noStart_spec0 _ _ (noStartB_sent_dbl ck (memE ck hck)) _ i hi
  | chr c =>
    right
    refine ⟨rfl, ?_⟩
    intro i hi
    have hi0 : i = 0 := by
      simpa [btokRestImg] using hi
    subst hi0
    have hp : plainTokChar c = true := by simpa [validBTok] using hvt
    have hp2 : (¬ c = '\\' ∧ ¬ c = '\x00') ∧ c.isUpper = false := by
      simpa [plainTokChar, Bool.and_eq_true] using hp
    have hcn : (('\x00' : Char) == c) = false :=
      beq_eq_false_iff_ne.mpr (fun he => hp2.1.2 he.symm)
    show startsWithL (sentinel (sentWord ck))
        ((btokRestImg k (BTok.chr c) ++ flatBToks (btokRestImg k) rest).drop 0) = false
    simp [btokRestImg, sentinel, startsWithL, hcn]

/-! ## The seventeen stages and their composition -/

theorem protStage (ck : Char) (k k2 : Nat) (w : List Char)
    (hck : escChars.contains ck = true) (hk : escIdx ck = k) (hk2 : k + 1 = k2)
    (hw : sentWord ck = w) (ts : List BTok) (hv : validBToks ts = true) :
    replaceAll (flatBToks (btokProtImg k) ts) (escPair ck) (sentinel w) =
      flatBToks (btokProtImg k2) ts := by
  subst hk2
  subst hw
  exact replaceAll_flat _ _ (escPair_ne_nil ck) _ _ (btokProtImg_ne_nil k)
    (hstepProt ck k hck hk) ts hv

theorem doubleStage (ts : List BTok) (hv : validBToks ts = true) :
    replaceAll (flatBToks (btokProtImg 8) ts) ['\\'] ['\\', '\\'] =
      flatBToks (btokRestImg 0) ts := by
  refine replaceAll_flat _ _ (by simp) _ _ (btokProtImg_ne_nil 8) hstepDouble ts hv

theorem restStage (ck : Char) (k k2 : Nat) (w : List Char)
    (hck : escChars.contains ck = true) (hk : escIdx ck = k) (hk2 : k + 1 = k2)
    (hw : sentWord ck = w) (ts : List BTok) (hv : validBToks ts = true) :
    replaceAll (flatBToks (btokRestImg k) ts) (sentinel w) (escPair ck) =
      flatBToks (btokRestImg k2) ts := by
  subst hk2
  subst hw
  exact replaceAll_flat _ _ (sentinel_ne_nil _) _ _ (btokRestImg_ne_nil k)
    (hstepRest ck k hck hk) ts hv

theorem flat_congr (f g : BTok → List Char) (ts : List BTok)
    (h : ∀ t ∈ ts, f t = g t) : flatBToks f ts = flatBToks g ts := by
  induction ts with
  | nil => rfl
  | cons t rest ih =>
    show f t ++ flatBToks f rest = g t ++ flatBToks g rest
    rw [h t (List.mem_cons_self t rest), ih (fun t2 ht2 => h t2 (List.mem_cons_of_mem t ht2))]

theorem normalizeBackslashes_flat (ts : List BTok) (hv : validBToks ts = true) :
    normalizeBackslashes (flatBToks btokRender ts) = flatBToks btokResult ts := by
  have h0 : flatBToks btokRender ts = flatBToks (btokProtImg 0) ts := by
    refine flat_congr _ _ ts (fun t _ => ?_)
    cases t <;> simp [btokRender, btokProtImg]
  have h8 : flatBToks (btokRestImg 8) ts = flatBToks btokResult ts := by
    refine flat_congr _ _ ts (fun t _ => ?_)
    cases t <;> simp [btokRestImg, btokResult, escIdx_lt8]
  show (protectPairs.foldl (fun acc p => replaceAll acc (sentinel p.2) (escPair p.1))
      (replaceAll (protectPairs.foldl
        (fun acc p => replaceAll acc (escPair p.1) (sentinel p.2))
        (flatBToks btokRender ts)) ['\\'] ['\\', '\\'])) = flatBToks btokResult ts
  simp only [protectPairs, List.foldl_cons, List.foldl_nil]
  rw [h0,
    protStage '\\' 0 1 wDB (by decide) (by decide) rfl (by decide) ts hv,
    protStage 'n' 1 2 wNL (by decide) (by decide) rfl (by decide) ts hv,
    protStage 'r' 2 3 wRT (by decide) (by decide) rfl (by decide) ts hv,
    protStage 't' 3 4 wTB (by decide) (by decide) rfl (by decide) ts hv,
    protStage '\x22' 4 5 wQU (by decide) (by decide) rfl (by decide) ts hv,
    protStage '/' 5 6 wSL (by decide) (by decide) rfl (by decide) ts hv,
    protStage 'b' 6 7 wBS (by decide) (by decide) rfl (by decide) ts hv,
    protStage 'f' 7 8 wFF (by decide) (by decide) rfl (by decide) ts hv,
    doubleStage ts hv,
    restStage '\\' 0 1 wDB (by decide) (by decide) rfl (by decide) ts hv,
    restStage 'n' 1 2 wNL (by decide) (by decide) rfl (by decide) ts hv,
    restStage 'r' 2 3 wRT (by decide) (by decide) rfl (by decide) ts hv,
    restStage 't' 3 4 wTB (by decide) (by decide) rfl (by decide) ts hv,
    restStage '\x22' 4 5 wQU (by decide) (by decide) rfl (by decide) ts hv,
    restStage '/' 5 6 wSL (by decide) (by decide) rfl (by decide) ts hv,
    restStage 'b' 6 7 wBS (by decide) (by decide) rfl (by decide) ts hv,
    restStage 'f' 7 8 wFF (by decide) (by decide) rfl (by decide) ts hv,
    h8]

/-- C8: the backslash-normalization step of robust_parse_json protects the
eight already-valid escape sequences with sentinel substitutions, doubles
every remaining bare backslash, then restores the protected sequences, so
protected escapes are never double-escaped: over every token string made of
valid escapes, bare backslashes (followed by an ordinary character) and
ordinary characters, the composite equals the per-token intent (escapes
kept verbatim, bare backslashes doubled, other characters unchanged).
Moreover the example input with a bare backslash before the word alpha
parses without error to a string holding a literal backslash before alpha. -/
theorem c8_backslash_repair :
    (∀ ts : List BTok, validBToks ts = true →
      normalizeBackslashes (flatBToks btokRender ts) = flatBToks btokResult ts) ∧
    robust_parse_json exBackslash false false =
      Except.ok (J.obj [(['t'], J.str ('\\' :: "alpha scaled".toList))]) :=
  ⟨normalizeBackslashes_flat, by decide⟩

theorem c8_backslash_repair_witness :
    validBToks [BTok.esc 'n', BTok.chr 'x', BTok.bare, BTok.chr 'a'] = true ∧
    normalizeBackslashes
        (flatBToks btokRender [BTok.esc 'n', BTok.chr 'x', BTok.bare, BTok.chr 'a']) =
      flatBToks btokResult [BTok.esc 'n', BTok.chr 'x', BTok.bare, BTok.chr 'a'] :=
  ⟨by decide,
    c8_backslash_repair.1 [BTok.esc 'n', BTok.chr 'x', BTok.bare, BTok.chr 'a']
      (by decide)⟩

/-! ## Decimal digit characters -/

theorem toCh_toNat (d : Nat) (hd : d < 10) : (Char.ofNat (48 + d)).toNat = 48 + d := by
  have hv : (48 + d).isValidChar := Or.inl (by omega)
  simp [Char.ofNat, hv, Char.ofNatAux, Char.toNat, UInt32.toNat, BitVec.toNat_ofNatLt]

theorem digitVal_toCh (d : Nat) (hd : d < 10) :
    digitVal (Char.ofNat (48 + d)) = d := by
  simp [digitVal, toCh_toNat d hd]

theorem isDigitC_toCh (d : Nat) (hd : d < 10) :
    isDigitC (Char.ofNat (48 + d)) = true := by
  simp [isDigitC, toCh_toNat d hd]
  omega

theorem digit_enum (c : Char) (h : isDigitC c = true) :
    c = '0' ∨ c = '1' ∨ c = '2' ∨ c = '3' ∨ c = '4' ∨ c = '5' ∨ c = '6' ∨
      c = '7' ∨ c = '8' ∨ c = '9' := by
  have hb : 48 ≤ c.toNat ∧ c.toNat ≤ 57 := by
    simpa [isDigitC, Bool.and_eq_true, decide_eq_true_eq] using h
  have he : c = Char.ofNat c.toNat := (Char.ofNat_toNat c).symm
  have h10 : c.toNat = 48 ∨ c.toNat = 49 ∨ c.toNat = 50 ∨ c.toNat = 51 ∨
      c.toNat = 52 ∨ c.toNat = 53 ∨ c.toNat = 54 ∨ c.toNat = 55 ∨
      c.toNat = 56 ∨ c.toNat = 57 := by omega
  rcases h10 with h2|h2|h2|h2|h2|h2|h2|h2|h2|h2
  · exact Or.inl (by rw [he, h2])
  · exact Or.inr (Or.inl (by rw [he, h2]))
  · exact Or.inr (Or.inr (Or.inl (by rw [he, h2])))
  · exact Or.inr (Or.inr (Or.inr (Or.inl (by rw [he, h2]))))
  · exact Or.inr (Or.inr (Or.inr (Or.inr (Or.inl (by rw [he, h2])))))
  · exact Or.inr (Or.inr (Or.inr (Or.inr (Or.inr (Or.inl (by rw [he, h2]))))))
  · exact Or.inr (Or.inr (Or.inr (Or.inr (Or.inr (Or.inr (Or.inl (by rw [he, h2])))))))
  · exact Or.inr (Or.inr (Or.inr (Or.inr (Or.inr (Or.inr (Or.inr (Or.inl (by rw [he, h2]))))))))
  · exact Or.inr (Or.inr (Or.inr (Or.inr (Or.inr (Or.inr (Or.inr (Or.inr (Or.inl (by rw [he, h2])))))))))
  · exact Or.inr (Or.inr (Or.inr (Or.inr (Or.inr (Or.inr (Or.inr (Or.inr (Or.inr (by rw [he, h2])))))))))

theorem jsonWs_digit (c : Char) (h : isDigitC c = true) : jsonWs c = false := by
  have hb : 48 ≤ c.toNat ∧ c.toNat ≤ 57 := by
    simpa [isDigitC, Bool.and_eq_true, decide_eq_true_eq] using h
  by_contra hws
  have hws2 : jsonWs c = true := by
    cases hj : jsonWs c
    · exact absurd hj hws
    · rfl
  have : c = ' ' ∨ c = '\t' ∨ c = '\n' ∨ c = '\r' := by
    simpa [jsonWs, Bool.or_eq_true, or_assoc] using hws2
  rcases this with rfl | rfl | rfl | rfl <;> simp at hb

/-! ## Digits of a natural number -/

theorem natDigitsAux_eq (fuel : Nat) : ∀ (n : Nat) (acc : List Char), n ≤ fuel →
    natDigitsAux fuel n acc =
      ((Nat.digits 10 n).map (fun d => Char.ofNat (48 + d))).reverse ++ acc := by
  induction fuel with
  | zero =>
    intro n acc h
    have hn : n = 0 := Nat.le_zero.mp h
    subst hn
    simp [natDigitsAux]
  | succ f ih =>
    intro n acc h
    by_cases hn : n = 0
    · subst hn
      simp [natDigitsAux]
    · show (if n = 0 then acc
        else natDigitsAux f (n / 10) (Char.ofNat (48 + n % 10) :: acc)) = _
      rw [if_neg hn]
      have hlt : n / 10 < n := Nat.div_lt_self (Nat.pos_of_ne_zero hn) (by norm_num)
      rw [ih (n / 10) _ (by omega),
        Nat.digits_def' (by norm_num : (1:Nat) < 10) (Nat.pos_of_ne_zero hn)]
      simp [List.append_assoc]

theorem foldl_digitChars (l : List Nat) (hl : ∀ d ∈ l, d < 10) :
    ∀ a : Nat, ((l.map (fun d => Char.ofNat (48 + d))).reverse).foldl
      (fun x c => x * 10 + digitVal c) a = a * 10 ^ l.length + Nat.ofDigits 10 l := by
  induction l with
  | nil => intro a; simp [Nat.ofDigits]
  | cons d t ih =>
    intro a
    have hd : d < 10 := hl d (List.mem_cons_self d t)
    have ht : ∀ x ∈ t, x < 10 := fun x hx => hl x (List.mem_cons_of_mem d hx)
    rw [List.map_cons, List.reverse_cons, List.foldl_append, ih ht a]
    simp only [List.foldl, digitVal_toCh d hd, Nat.ofDigits_cons, List.length_cons,
      pow_succ]
    ring

theorem natDigits_foldl (m : Nat) :
    (natDigits m).foldl (fun a c => a * 10 + digitVal c) 0 = m := by
  by_cases hm : m = 0
  · subst hm
    decide
  · show (if m = 0 then ['0'] else natDigitsAux m m []).foldl _ 0 = m
    rw [if_neg hm, natDigitsAux_eq m m [] le_rfl, List.append_nil,
      foldl_digitChars (Nat.digits 10 m)
        (fun d hd => Nat.digits_lt_base (by norm_num) hd) 0]
    simp [Nat.ofDigits_digits]

theorem natDigits_eq (m : Nat) (hm : ¬ m = 0) :
    natDigits m = ((Nat.digits 10 m).map (fun d => Char.ofNat (48 + d))).reverse := by
  show (if m = 0 then ['0'] else natDigitsAux m m []) = _
  rw [if_neg hm, natDigitsAux_eq m m [] le_rfl, List.append_nil]

theorem natDigits_all (m : Nat) : (natDigits m).all isDigitC = true := by
  by_cases hm : m = 0
  · subst hm
    decide
  · rw [natDigits_eq m hm, List.all_eq_true]
    intro c hc
    rw [List.mem_reverse] at hc
    obtain ⟨d, hd, rfl⟩ := List.mem_map.mp hc
    exact isDigitC_toCh d (Nat.digits_lt_base (by norm_num) hd)

theorem natDigits_head (m : Nat) (hm : ¬ m = 0) :
    ∃ d ds, natDigits m = Char.ofNat (48 + d) :: ds ∧ 0 < d ∧ d < 10 := by
  have hne : Nat.digits 10 m ≠ [] := by
    simpa [Nat.digits_ne_nil_iff_ne_zero] using hm
  obtain ⟨d0, l0, hrev⟩ : ∃ d0 l0, (Nat.digits 10 m).reverse = d0 :: l0 := by
    cases hr : (Nat.digits 10 m).reverse with
    | nil =>
      exact absurd (by simpa using congrArg List.reverse hr) hne
    | cons a b => exact ⟨a, b, rfl⟩
  have hd0mem : d0 ∈ Nat.digits 10 m :=
    List.mem_reverse.mp (hrev ▸ List.mem_cons_self d0 l0)
  have hd0lt : d0 < 10 := Nat.digits_lt_base (by norm_num) hd0mem
  have hlast : (Nat.digits 10 m).getLast? = some d0 := by
    rw [← List.head?_reverse, hrev]
    rfl
  have hd0ne : ¬ d0 = 0 := by
    intro h0
    apply Nat.getLast_digit_ne_zero 10 hm
    rw [List.getLast?_eq_getLast _ hne] at hlast
    exact (Option.some_inj.mp hlast).trans h0
  refine ⟨d0, l0.map (fun d => Char.ofNat (48 + d)), ?_, Nat.pos_of_ne_zero hd0ne, hd0lt⟩
  rw [natDigits_eq m hm]
  rw [show ((Nat.digits 10 m).map (fun d => Char.ofNat (48 + d))).reverse =
      ((Nat.digits 10 m).reverse).map (fun d => Char.ofNat (48 + d)) from by simp]
  rw [hrev, List.map_cons]

/-! ## Scanning a rendered number -/

theorem restOk_head (c : Char) (r : List Char) (h : restOk (c :: r) = true) :
    c = ',' ∨ c = '\x7d' ∨ c = ']' := by
  simpa [restOk, Bool.or_eq_true, or_assoc] using h

theorem takeDigits_all : ∀ ds rest : List Char, ds.all isDigitC = true →
    restOk rest = true → takeDigits (ds ++ rest) = (ds, rest) := by
  intro ds
  induction ds with
  | nil =>
    intro rest h hr
    cases rest with
    | nil => rfl
    | cons c r =>
      have hc : isDigitC c = false := by
        rcases restOk_head c r hr with rfl | rfl | rfl <;> decide
      show takeDigits (c :: r) = ([], c :: r)
      simp [takeDigits, hc]
  | cons d t ih =>
    intro rest h hr
    have hd : isDigitC d = true ∧ t.all isDigitC = true := by
      simpa [List.all_cons, Bool.and_eq_true] using h
    show takeDigits (d :: (t ++ rest)) = (d :: t, rest)
    simp [takeDigits, hd.1, ih rest hd.2 hr]

theorem finishNum_plain (neg digits rest : List Char) (hr : restOk rest = true) :
    finishNum neg digits rest =
      (J.num (if neg.isEmpty then
          ((digits.foldl (fun a c => a * 10 + digitVal c) 0 : Nat) : Int)
        else -((digits.foldl (fun a c => a * 10 + digitVal c) 0 : Nat) : Int)),
        rest) := by
  cases rest with
  | nil => simp [finishNum]
  | cons c r =>
    rcases restOk_head c r hr with rfl | rfl | rfl <;> simp [finishNum]

theorem parseVal_dg0 (f : Nat) (X : List Char) :
    parseVal (f + 1) ('0' :: X) = parseNum ('0' :: X) := rfl

theorem parseVal_dg1 (f : Nat) (X : List Char) :
    parseVal (f + 1) ('1' :: X) = parseNum ('1' :: X) := rfl

theorem parseVal_dg2 (f : Nat) (X : List Char) :
    parseVal (f + 1) ('2' :: X) = parseNum ('2' :: X) := rfl

theorem parseVal_dg3 (f : Nat) (X : List Char) :
    parseVal (f + 1) ('3' :: X) = parseNum ('3' :: X) := rfl

theorem parseVal_dg4 (f : Nat) (X : List Char) :
    parseVal (f + 1) ('4' :: X) = parseNum ('4' :: X) := rfl

theorem parseVal_dg5 (f : Nat) (X : List Char) :
    parseVal (f + 1) ('5' :: X) = parseNum ('5' :: X) := rfl

theorem parseVal_dg6 (f : Nat) (X : List Char) :
    parseVal (f + 1) ('6' :: X) = parseNum ('6' :: X) := rfl

theorem parseVal_dg7 (f : Nat) (X : List Char) :
    parseVal (f + 1) ('7' :: X) = parseNum ('7' :: X) := rfl

theorem parseVal_dg8 (f : Nat) (X : List Char) :
    parseVal (f + 1) ('8' :: X) = parseNum ('8' :: X) := rfl

theorem parseVal_dg9 (f : Nat) (X : List Char) :
    parseVal (f + 1) ('9' :: X) = parseNum ('9' :: X) := rfl

theorem parseVal_ng1 (f : Nat) (X : List Char) :
    parseVal (f + 1) ('-' :: '1' :: X) = parseNum ('-' :: '1' :: X) := rfl

theorem parseVal_ng2 (f : Nat) (X : List Char) :
    parseVal (f + 1) ('-' :: '2' :: X) = parseNum ('-' :: '2' :: X) := rfl

theorem parseVal_ng3 (f : Nat) (X : List Char) :
    parseVal (f + 1) ('-' :: '3' :: X) = parseNum ('-' :: '3' :: X) := rfl

theorem parseVal_ng4 (f : Nat) (X : List Char) :
    parseVal (f + 1) ('-' :: '4' :: X) = parseNum ('-' :: '4' :: X) := rfl

theorem parseVal_ng5 (f : Nat) (X : List Char) :
    parseVal (f + 1) ('-' :: '5' :: X) = parseNum ('-' :: '5' :: X) := rfl

theorem parseVal_ng6 (f : Nat) (X : List Char) :
    parseVal (f + 1) ('-' :: '6' :: X) = parseNum ('-' :: '6' :: X) := rfl

theorem parseVal_ng7 (f : Nat) (X : List Char) :
    parseVal (f + 1) ('-' :: '7' :: X) = parseNum ('-' :: '7' :: X) := rfl

theorem parseVal_ng8 (f : Nat) (X : List Char) :
    parseVal (f + 1) ('-' :: '8' :: X) = parseNum ('-' :: '8' :: X) := rfl

theorem parseVal_ng9 (f : Nat) (X : List Char) :
    parseVal (f + 1) ('-' :: '9' :: X) = parseNum ('-' :: '9' :: X) := rfl

theorem parseNum_dg0 (X : List Char) :
    parseNum ('0' :: X) = some (finishNum [] ['0'] X) := rfl

theorem parseNum_dg1 (X : List Char) :
    parseNum ('1' :: X) =
      some (finishNum [] ('1' :: (takeDigits X).1) (takeDigits X).2) := rfl

theorem parseNum_dg2 (X : List Char) :
    parseNum ('2' :: X) =
      some (finishNum [] ('2' :: (takeDigits X).1) (takeDigits X).2) := rfl

theorem parseNum_dg3 (X : List Char) :
    parseNum ('3' :: X) =
      some (finishNum [] ('3' :: (takeDigits X).1) (takeDigits X).2) := rfl

theorem parseNum_dg4 (X : List Char) :
    parseNum ('4' :: X) =
      some (finishNum [] ('4' :: (takeDigits X).1) (takeDigits X).2) := rfl

theorem parseNum_dg5 (X : List Char) :
    parseNum ('5' :: X) =
      some (finishNum [] ('5' :: (takeDigits X).1) (takeDigits X).2) := rfl

theorem parseNum_dg6 (X : List Char) :
    parseNum ('6' :: X) =
      some (finishNum [] ('6' :: (takeDigits X).1) (takeDigits X).2) := rfl

theorem parseNum_dg7 (X : List Char) :
    parseNum ('7' :: X) =
      some (finishNum [] ('7' :: (takeDigits X).1) (takeDigits X).2) := rfl

theorem parseNum_dg8 (X : List Char) :
    parseNum ('8' :: X) =
      some (finishNum [] ('8' :: (takeDigits X).1) (takeDigits X).2) := rfl

theorem parseNum_dg9 (X : List Char) :
    parseNum ('9' :: X) =
      some (finishNum [] ('9' :: (takeDigits X).1) (takeDigits X).2) := rfl

theorem parseNum_ng1 (X : List Char) :
    parseNum ('-' :: '1' :: X) =
      some (finishNum ['-'] ('1' :: (takeDigits X).1) (takeDigits X).2) := rfl

theorem parseNum_ng2 (X : List Char) :
    parseNum ('-' :: '2' :: X) =
      some (finishNum ['-'] ('2' :: (takeDigits X).1) (takeDigits X).2) := rfl

theorem parseNum_ng3 (X : List Char) :
    parseNum ('-' :: '3' :: X) =
      some (finishNum ['-'] ('3' :: (takeDigits X).1) (takeDigits X).2) := rfl

theorem parseNum_ng4 (X : List Char) :
    parseNum ('-' :: '4' :: X) =
      some (finishNum ['-'] ('4' :: (takeDigits X).1) (takeDigits X).2) := rfl

theorem parseNum_ng5 (X : List Char) :
    parseNum ('-' :: '5' :: X) =
      some (finishNum ['-'] ('5' :: (takeDigits X).1) (takeDigits X).2) := rfl

theorem parseNum_ng6 (X : List Char) :
    parseNum ('-' :: '6' :: X) =
      some (finishNum ['-'] ('6' :: (takeDigits X).1) (takeDigits X).2) := rfl

theorem parseNum_ng7 (X : List Char) :
    parseNum ('-' :: '7' :: X) =
      some (finishNum ['-'] ('7' :: (takeDigits X).1) (takeDigits X).2) := rfl

theorem parseNum_ng8 (X : List Char) :
    parseNum ('-' :: '8' :: X) =
      some (finishNum ['-'] ('8' :: (takeDigits X).1) (takeDigits X).2) := rfl

theorem parseNum_ng9 (X : List Char) :
    parseNum ('-' :: '9' :: X) =
      some (finishNum ['-'] ('9' :: (takeDigits X).1) (takeDigits X).2) := rfl

theorem parseNum_natDigits (m : Nat) (rest : List Char) (hr : restOk rest = true) :
    parseNum (natDigits m ++ rest) = some (J.num (m : Int), rest) := by
  by_cases hm : m = 0
  · subst hm
    rw [show natDigits 0 ++ rest = '0' :: rest from rfl, parseNum_dg0,
      finishNum_plain [] ['0'] rest hr]
    rfl
  · obtain ⟨d, ds, hnd, hdpos, hdlt⟩ := natDigits_head m hm
    have hall := natDigits_all m
    rw [hnd, List.all_cons, Bool.and_eq_true] at hall
    have hds : ds.all isDigitC = true := hall.2
    have hfold : (natDigits m).foldl (fun a c => a * 10 + digitVal c) 0 = m :=
      natDigits_foldl m
    rw [hnd] at hfold
    have h9 : d = 1 ∨ d = 2 ∨ d = 3 ∨ d = 4 ∨ d = 5 ∨ d = 6 ∨ d = 7 ∨ d = 8 ∨
        d = 9 := by omega
    rcases h9 with rfl|rfl|rfl|rfl|rfl|rfl|rfl|rfl|rfl
    · rw [show Char.ofNat (48 + 1) = '1' from by decide] at hnd hfold
      rw [hnd, List.cons_append, parseNum_dg1, takeDigits_all ds rest hds hr,
        finishNum_plain [] ('1' :: ds) rest hr, hfold]
      rfl
    · rw [show Char.ofNat (48 + 2) = '2' from by decide] at hnd hfold
      rw [hnd, List.cons_append, parseNum_dg2, takeDigits_all ds rest hds hr,
        finishNum_plain [] ('2' :: ds) rest hr, hfold]
      rfl
    · rw [show Char.ofNat (48 + 3) = '3' from by decide] at hnd hfold
      rw [hnd, List.cons_append, parseNum_dg3, takeDigits_all ds rest hds hr,
        finishNum_plain [] ('3' :: ds) rest hr, hfold]
      rfl
    · rw [show Char.ofNat (48 + 4) = '4' from by decide] at hnd hfold
      rw [hnd, List.cons_append, parseNum_dg4, takeDigits_all ds rest hds hr,
        finishNum_plain [] ('4' :: ds) rest hr, hfold]
      rfl
    · rw [show Char.ofNat (48 + 5) = '5' from by decide] at hnd hfold
      rw [hnd, List.cons_append, parseNum_dg5, takeDigits_all ds rest hds hr,
        finishNum_plain [] ('5' :: ds) rest hr, hfold]
      rfl
    · rw [show Char.ofNat (48 + 6) = '6' from by decide] at hnd hfold
      rw [hnd, List.cons_append, parseNum_dg6, takeDigits_all ds rest hds hr,
        finishNum_plain [] ('6' :: ds) rest hr, hfold]
      rfl
    · rw [show Char.ofNat (48 + 7) = '7' from by decide] at hnd hfold
      rw [hnd, List.cons_append, parseNum_dg7, takeDigits_all ds rest hds hr,
        finishNum_plain [] ('7' :: ds) rest hr, hfold]
      rfl
    · rw [show Char.ofNat (48 + 8) = '8' from by decide] at hnd hfold
      rw [hnd, List.cons_append, parseNum_dg8, takeDigits_all ds rest hds hr,
        finishNum_plain [] ('8' :: ds) rest hr, hfold]
      rfl
    · rw [show Char.ofNat (48 + 9) = '9' from by decide] at hnd hfold
      rw [hnd, List.cons_append, parseNum_dg9, takeDigits_all ds rest hds hr,
        finishNum_plain [] ('9' :: ds) rest hr, hfold]
      rfl

theorem parseNum_negDigits (m : Nat) (rest : List Char) (hm : ¬ m = 0)
    (hr : restOk rest = true) :
    parseNum (('-' :: natDigits m) ++ rest) = some (J.num (-(m : Int)), rest) := by
  obtain ⟨d, ds, hnd, hdpos, hdlt⟩ := natDigits_head m hm
  have hall := natDigits_all m
  rw [hnd, List.all_cons, Bool.and_eq_true] at hall
  have hds : ds.all isDigitC = true := hall.2
  have hfold : (natDigits m).foldl (fun a c => a * 10 + digitVal c) 0 = m :=
    natDigits_foldl m
  rw [hnd] at hfold
  have h9 : d = 1 ∨ d = 2 ∨ d = 3 ∨ d = 4 ∨ d = 5 ∨ d = 6 ∨ d = 7 ∨ d = 8 ∨
      d = 9 := by omega
  rcases h9 with rfl|rfl|rfl|rfl|rfl|rfl|rfl|rfl|rfl
  · rw [show Char.ofNat (48 + 1) = '1' from by decide] at hnd hfold
    rw [hnd, List.cons_append, List.cons_append, parseNum_ng1,
      takeDigits_all ds rest hds hr,
      finishNum_plain ['-'] ('1' :: ds) rest hr, hfold]
    rfl
  · rw [show Char.ofNat (48 + 2) = '2' from by decide] at hnd hfold
    rw [hnd, List.cons_append, List.cons_append, parseNum_ng2,
      takeDigits_all ds rest hds hr,
      finishNum_plain ['-'] ('2' :: ds) rest hr, hfold]
    rfl
  · rw [show Char.ofNat (48 + 3) = '3' from by decide] at hnd hfold
    rw [hnd, List.cons_append, List.cons_append, parseNum_ng3,
      takeDigits_all ds rest hds hr,
      finishNum_plain ['-'] ('3' :: ds) rest hr, hfold]
    rfl
  · rw [show Char.ofNat (48 + 4) = '4' from by decide] at hnd hfold
    rw [hnd, List.cons_append, List.cons_append, parseNum_ng4,
      takeDigits_all ds rest hds hr,
      finishNum_plain ['-'] ('4' :: ds) rest hr, hfold]
    rfl
  · rw [show Char.ofNat (48 + 5) = '5' from by decide] at hnd hfold
    rw [hnd, List.cons_append, List.cons_append, parseNum_ng5,
      takeDigits_all ds rest hds hr,
      finishNum_plain ['-'] ('5' :: ds) rest hr, hfold]
    rfl
  · rw [show Char.ofNat (48 + 6) = '6' from by decide] at hnd hfold
    rw [hnd, List.cons_append, List.cons_append, parseNum_ng6,
      takeDigits_all ds rest hds hr,
      finishNum_plain ['-'] ('6' :: ds) rest hr, hfold]
    rfl
  · rw [show Char.ofNat (48 + 7) = '7' from by decide] at hnd hfold
    rw [hnd, List.cons_append, List.cons_append, parseNum_ng7,
      takeDigits_all ds rest hds hr,
      finishNum_plain ['-'] ('7' :: ds) rest hr, hfold]
    rfl
  · rw [show Char.ofNat (48 + 8) = '8' from by decide] at hnd hfold
    rw [hnd, List.cons_append, List.cons_append, parseNum_ng8,
      takeDigits_all ds rest hds hr,
      finishNum_plain ['-'] ('8' :: ds) rest hr, hfold]
    rfl
  · rw [show Char.ofNat (48 + 9) = '9' from by decide] at hnd hfold
    rw [hnd, List.cons_append, List.cons_append, parseNum_ng9,
      takeDigits_all ds rest hds hr,
      finishNum_plain ['-'] ('9' :: ds) rest hr, hfold]
    rfl

theorem parseVal_natDigits (f m : Nat) (rest : List Char) :
    parseVal (f + 1) (natDigits m ++ rest) = parseNum (natDigits m ++ rest) := by
  by_cases hm : m = 0
  · subst hm
    rw [show natDigits 0 ++ rest = '0' :: rest from rfl, parseVal_dg0]
  · obtain ⟨d, ds, hnd, hdpos, hdlt⟩ := natDigits_head m hm
    have h9 : d = 1 ∨ d = 2 ∨ d = 3 ∨ d = 4 ∨ d = 5 ∨ d = 6 ∨ d = 7 ∨ d = 8 ∨
        d = 9 := by omega
    rcases h9 with rfl|rfl|rfl|rfl|rfl|rfl|rfl|rfl|rfl
    · rw [show Char.ofNat (48 + 1) = '1' from by decide] at hnd
      rw [hnd, List.cons_append, parseVal_dg1]
    · rw [show Char.ofNat (48 + 2) = '2' from by decide] at hnd
      rw [hnd, List.cons_append, parseVal_dg2]
    · rw [show Char.ofNat (48 + 3) = '3' from by decide] at hnd
      rw [hnd, List.cons_append, parseVal_dg3]
    · rw [show Char.ofNat (48 + 4) = '4' from by decide] at hnd
      rw [hnd, List.cons_append, parseVal_dg4]
    · rw [show Char.ofNat (48 + 5) = '5' from by decide] at hnd
      rw [hnd, List.cons_append, parseVal_dg5]
    · rw [show Char.ofNat (48 + 6) = '6' from by decide] at hnd
      rw [hnd, List.cons_append, parseVal_dg6]
    · rw [show Char.ofNat (48 + 7) = '7' from by decide] at hnd
      rw [hnd, List.cons_append, parseVal_dg7]
    · rw [show Char.ofNat (48 + 8) = '8' from by decide] at hnd
      rw [hnd, List.cons_append, parseVal_dg8]
    · rw [show Char.ofNat (48 + 9) = '9' from by decide] at hnd
      rw [hnd, List.cons_append, parseVal_dg9]

theorem parseVal_negDigits (f m : Nat) (rest : List Char) (hm : ¬ m = 0) :
    parseVal (f + 1) (('-' :: natDigits m) ++ rest) =
      parseNum (('-' :: natDigits m) ++ rest) := by
  obtain ⟨d, ds, hnd, hdpos, hdlt⟩ := natDigits_head m hm
  have h9 : d = 1 ∨ d = 2 ∨ d = 3 ∨ d = 4 ∨ d = 5 ∨ d = 6 ∨ d = 7 ∨ d = 8 ∨
      d = 9 := by omega
  rcases h9 with rfl|rfl|rfl|rfl|rfl|rfl|rfl|rfl|rfl
  · rw [show Char.ofNat (48 + 1) = '1' from by decide] at hnd
    rw [hnd, List.cons_append, List.cons_append, parseVal_ng1]
  · rw [show Char.ofNat (48 + 2) = '2' from by decide] at hnd
    rw [hnd, List.cons_append, List.cons_append, parseVal_ng2]
  · rw [show Char.ofNat (48 + 3) = '3' from by decide] at hnd
    rw [hnd, List.cons_append, List.cons_append, parseVal_ng3]
  · rw [show Char.ofNat (48 + 4) = '4' from by decide] at hnd
    rw [hnd, List.cons_append, List.cons_append, parseVal_ng4]
  · rw [show Char.ofNat (48 + 5) = '5' from by decide] at hnd
    rw [hnd, List.cons_append, List.cons_append, parseVal_ng5]
  · rw [show Char.ofNat (48 + 6) = '6' from by decide] at hnd
    rw [hnd, List.cons_append, List.cons_append, parseVal_ng6]
  · rw [show Char.ofNat (48 + 7) = '7' from by decide] at hnd
    rw [hnd, List.cons_append, List.cons_append, parseVal_ng7]
  · rw [show Char.ofNat (48 + 8) = '8' from by decide] at hnd
    rw [hnd, List.cons_append, List.cons_append, parseVal_ng8]
  · rw [show Char.ofNat (48 + 9) = '9' from by decide] at hnd
    rw [hnd, List.cons_append, List.cons_append, parseVal_ng9]

theorem parseVal_num (f : Nat) (n : Int) (rest : List Char) (hr : restOk rest = true) :
    parseVal (f + 1) (render (J.num n) ++ rest) = some (J.num n, rest) := by
  by_cases hneg : n < 0
  · rw [show render (J.num n) = '-' :: natDigits n.natAbs from by
      simp [render, intDigits, hneg]]
    have hm : ¬ n.natAbs = 0 := by omega
    rw [parseVal_negDigits f n.natAbs rest hm, parseNum_negDigits n.natAbs rest hm hr]
    have : -((n.natAbs : Nat) : Int) = n := by omega
    rw [this]
  · rw [show render (J.num n) = natDigits n.toNat from by
      simp [render, intDigits, hneg]]
    rw [parseVal_natDigits f n.toNat rest, parseNum_natDigits n.toNat rest hr]
    have : ((n.toNat : Nat) : Int) = n := by omega
    rw [this]

/-! ## Scanning a rendered string -/

theorem plainChar_unpack (c : Char) (hc : plainChar c = true) :
    32 ≤ c.toNat ∧ c.toNat < 127 ∧ ¬ c = '\x22' ∧ ¬ c = '\\' := by
  have h := hc
  simp only [plainChar, Bool.and_eq_true, bne_iff_ne, decide_eq_true_eq] at h
  exact ⟨h.1.1.1, h.1.1.2, h.1.2, h.2⟩

theorem escapeChar_plain (c : Char) (hc : plainChar c = true) : escapeChar c = [c] := by
  obtain ⟨h32, h127, hq, hbs⟩ := plainChar_unpack c hc
  have hlow : ∀ x : Char, x.toNat < 32 → ¬ c = x := by
    intro x hx he
    rw [he] at h32
    omega
  unfold escapeChar
  rw [if_neg hq, if_neg hbs, if_neg (hlow '\n' (by decide)),
    if_neg (hlow '\r' (by decide)), if_neg (hlow '\t' (by decide)),
    if_neg (hlow '\x08' (by decide)), if_neg (hlow '\x0c' (by decide))]
  have hr1 : decide (c.toNat < 32) = false := decide_eq_false (by omega)
  have hr2 : decide (127 ≤ c.toNat) = false := decide_eq_false (by omega)
  rw [hr1, hr2]
  rfl

theorem escapeStr_plain : ∀ s : List Char, s.all plainChar = true → escapeStr s = s := by
  intro s
  induction s with
  | nil => intro _; rfl
  | cons c t ih =>
    intro h
    have h2 : plainChar c = true ∧ t.all plainChar = true := by
      simpa [List.all_cons, Bool.and_eq_true] using h
    show escapeChar c ++ escapeStr t = c :: t
    rw [escapeChar_plain c h2.1, ih h2.2]
    rfl

theorem parseStrF_plain : ∀ (fuel : Nat) (s rest : List Char),
    s.all plainChar = true → s.length < fuel →
    parseStrF fuel (s ++ '\x22' :: rest) = some (s, rest) := by
  intro fuel
  induction fuel with
  | zero =>
    intro s rest _ h
    omega
  | succ f ih =>
    intro s rest hs hlen
    cases s with
    | nil =>
      show parseStrF (f + 1) ('\x22' :: rest) = some ([], rest)
      rfl
    | cons c t =>
      have h2 : plainChar c = true ∧ t.all plainChar = true := by
        simpa [List.all_cons, Bool.and_eq_true] using hs
      obtain ⟨h32, h127, hq, hbs⟩ := plainChar_unpack c h2.1
      show parseStrF (f + 1) (c :: (t ++ '\x22' :: rest)) = some (c :: t, rest)
      simp only [parseStrF]
      rw [if_neg hq, if_neg hbs, if_neg (by omega : ¬ c.toNat < 32),
        ih t rest h2.2 (by simpa using Nat.lt_of_succ_lt_succ hlen)]
      rfl

theorem parseStr_plain (s rest : List Char) (hs : s.all plainChar = true) :
    parseStr (s ++ '\x22' :: rest) = some (s, rest) := by
  unfold parseStr
  exact parseStrF_plain _ s rest hs (by simp [List.length_append]; omega)

/-! ## Dispatch lemmas for the head of a rendered value -/

theorem parseVal_null (f : Nat) (rest : List Char) :
    parseVal (f + 1) ('n' :: 'u' :: 'l' :: 'l' :: rest) = some (J.null, rest) := rfl

theorem parseVal_true (f : Nat) (rest : List Char) :
    parseVal (f + 1) ('t' :: 'r' :: 'u' :: 'e' :: rest) =
      some (J.bool true, rest) := rfl

theorem parseVal_false (f : Nat) (rest : List Char) :
    parseVal (f + 1) ('f' :: 'a' :: 'l' :: 's' :: 'e' :: rest) =
      some (J.bool false, rest) := rfl

theorem parseVal_quote (f : Nat) (X : List Char) :
    parseVal (f + 1) ('\x22' :: X) =
      (parseStr X).map (fun p => (J.str p.1, p.2)) := rfl

theorem parseVal_obj0 (f : Nat) (rest : List Char) :
    parseVal (f + 1) ('\x7b' :: '\x7d' :: rest) = some (J.obj [], rest) := rfl

theorem parseVal_objNE (f : Nat) (X : List Char) :
    parseVal (f + 1) ('\x7b' :: '\x22' :: X) = parseMembers f ('\x22' :: X) [] := rfl

theorem parseVal_arr0 (f : Nat) (rest : List Char) :
    parseVal (f + 1) ('[' :: ']' :: rest) = some (J.arr [], rest) := rfl

theorem valHead_elim (c : Char) (h : valHead c = true) :
    c = 'n' ∨ c = 't' ∨ c = 'f' ∨ c = '\x22' ∨ c = '\x7b' ∨ c = '[' ∨ c = '-' ∨
      isDigitC c = true := by
  simpa [valHead, Bool.or_eq_true, or_assoc] using h

theorem valHead_not_ws (c : Char) (h : valHead c = true) : jsonWs c = false := by
  rcases valHead_elim c h with rfl|rfl|rfl|rfl|rfl|rfl|rfl|hd
  · rfl
  · rfl
  · rfl
  · rfl
  · rfl
  · rfl
  · rfl
  · exact jsonWs_digit c hd

theorem parseVal_arr_dispatch (f : Nat) (c : Char) (X : List Char)
    (h : valHead c = true) :
    parseVal (f + 1) ('[' :: c :: X) = parseElems f (c :: X) [] := by
  rcases valHead_elim c h with rfl|rfl|rfl|rfl|rfl|rfl|rfl|hd
  · rfl
  · rfl
  · rfl
  · rfl
  · rfl
  · rfl
  · rfl
  · rcases digit_enum c hd with rfl|rfl|rfl|rfl|rfl|rfl|rfl|rfl|rfl|rfl <;> rfl

theorem render_head (v : J) (hv : wfJ v = true) :
    ∃ c X, render v = c :: X ∧ valHead c = true := by
  cases v with
  | null => exact ⟨'n', _, rfl, by decide⟩
  | bool b => cases b
              · exact ⟨'f', _, rfl, by decide⟩
              · exact ⟨'t', _, rfl, by decide⟩
  | num n =>
    by_cases hneg : n < 0
    · exact ⟨'-', natDigits n.natAbs, by simp [render, intDigits, hneg], by decide⟩
    · by_cases hz : n.toNat = 0
      · refine ⟨'0', [], ?_, by decide⟩
        rw [show render (J.num n) = natDigits n.toNat from by
          simp [render, intDigits, hneg], hz]
        rfl
      · obtain ⟨d, ds, hnd, hdpos, hdlt⟩ := natDigits_head n.toNat hz
        refine ⟨Char.ofNat (48 + d), ds, ?_, ?_⟩
        · rw [show render (J.num n) = natDigits n.toNat from by
            simp [render, intDigits, hneg], hnd]
        · simp [valHead, isDigitC_toCh d hdlt]
  | fnum l => exact absurd hv (by simp [wfJ])
  | str s2 => exact ⟨'\x22', _, rfl, by decide⟩
  | arr xs => exact ⟨'[', _, rfl, by decide⟩
  | obj kvs => exact ⟨'\x7b', _, rfl, by decide⟩

theorem skipWs_render_append (v : J) (X : List Char) (hv : wfJ v = true) :
    skipWs (render v ++ X) = render v ++ X := by
  obtain ⟨c, X0, hx, hvh⟩ := render_head v hv
  rw [hx]
  show skipWs (c :: (X0 ++ X)) = c :: (X0 ++ X)
  simp [skipWs, valHead_not_ws c hvh]

/-! ## Step lemmas for object members and array elements -/

theorem parseElems_comma (f : Nat) (s : List Char) (acc : List J) (v : J)
    (Z2 : List Char) (hpv : parseVal f s = some (v, ',' :: Z2)) :
    parseElems (f + 1) s acc = parseElems f (skipWs Z2) (acc ++ [v]) := by
  simp only [parseElems, hpv]
  rfl

theorem parseElems_close (f : Nat) (s : List Char) (acc : List J) (v : J)
    (Z2 : List Char) (hpv : parseVal f s = some (v, ']' :: Z2)) :
    parseElems (f + 1) s acc = some (J.arr (acc ++ [v]), Z2) := by
  simp only [parseElems, hpv]
  rfl

theorem parseMembers_comma (f : Nat) (X : List Char) (acc : List (List Char × J))
    (k Y : List Char) (v : J) (Z2 : List Char)
    (hps : parseStr X = some (k, ':' :: Y))
    (hskY : skipWs Y = Y)
    (hpv : parseVal f Y = some (v, ',' :: Z2)) :
    parseMembers (f + 1) ('\x22' :: X) acc =
      parseMembers f (skipWs Z2) (updKV acc k v) := by
  simp only [parseMembers, hps]
  rw [show skipWs (':' :: Y) = ':' :: Y from rfl]
  simp only [hskY, hpv]
  rfl

theorem parseMembers_close (f : Nat) (X : List Char) (acc : List (List Char × J))
    (k Y : List Char) (v : J) (Z2 : List Char)
    (hps : parseStr X = some (k, ':' :: Y))
    (hskY : skipWs Y = Y)
    (hpv : parseVal f Y = some (v, '\x7d' :: Z2)) :
    parseMembers (f + 1) ('\x22' :: X) acc = some (J.obj (updKV acc k v), Z2) := by
  simp only [parseMembers, hps]
  rw [show skipWs (':' :: Y) = ':' :: Y from rfl]
  simp only [hskY, hpv]
  rfl

/-! ## Accumulator plumbing -/

theorem updKV_fresh : ∀ (acc : List (List Char × J)) (k : List Char) (v : J),
    containsKey acc k = false → updKV acc k v = acc ++ [(k, v)] := by
  intro acc
  induction acc with
  | nil => intro k v _; rfl
  | cons kv t ih =>
    intro k v h
    obtain ⟨k0, v0⟩ := kv
    have h2 : (k0 == k) = false ∧ containsKey t k = false := by
      simpa [containsKey, List.any_cons, Bool.or_eq_true] using h
    show (if k0 = k then (k0, v) :: t else (k0, v0) :: updKV t k v) = _
    rw [if_neg (by simpa using h2.1), ih k v h2.2]
    rfl

theorem containsKey_append (a b : List (List Char × J)) (k : List Char) :
    containsKey (a ++ b) k = (containsKey a k || containsKey b k) := by
  simp [containsKey, List.any_append]

theorem renderElems_factor (x : J) (xs : List J) :
    renderElems (x :: xs) = render x ++ elemsSep xs := by
  cases xs with
  | nil => simp [renderElems, elemsSep]
  | cons y ys => rfl

theorem renderMembers_factor (k : List Char) (v : J) (kvs : List (List Char × J)) :
    renderMembers ((k, v) :: kvs) =
      ('\x22' :: escapeStr k ++ '\x22' :: ':' :: render v) ++ memSep kvs := by
  cases kvs with
  | nil => simp [renderMembers, memSep]
  | cons kv2 kvs2 => rfl

theorem restOk_elemsSep (xs : List J) (rest : List Char) :
    restOk (elemsSep xs ++ ']' :: rest) = true := by
  cases xs with
  | nil => rfl
  | cons y ys => rfl

theorem restOk_memSep (kvs : List (List Char × J)) (rest : List Char) :
    restOk (memSep kvs ++ '\x7d' :: rest) = true := by
  cases kvs with
  | nil => rfl
  | cons kv kvs2 => rfl

theorem skipWs_members (kv : List Char × J) (kvs : List (List Char × J))
    (X : List Char) :
    skipWs (renderMembers (kv :: kvs) ++ X) = renderMembers (kv :: kvs) ++ X := by
  obtain ⟨k, v⟩ := kv
  rw [renderMembers_factor]
  rfl

/-! ## The round trip of the decoder over the serializer -/

theorem roundAux : ∀ fuel : Nat,
    (∀ v rest, wfJ v = true → restOk rest = true → (render v).length < fuel →
      parseVal fuel (render v ++ rest) = some (v, rest)) ∧
    (∀ kvs acc rest, wfFieldsJ kvs = true → ¬ kvs = [] →
      (∀ k2, containsKey kvs k2 = true → containsKey acc k2 = false) →
      (renderMembers kvs).length < fuel →
      parseMembers fuel (renderMembers kvs ++ '\x7d' :: rest) acc =
        some (J.obj (acc ++ kvs), rest)) ∧
    (∀ xs acc rest, wfListJ xs = true → ¬ xs = [] →
      (renderElems xs).length + 1 < fuel →
      parseElems fuel (renderElems xs ++ ']' :: rest) acc =
        some (J.arr (acc ++ xs), rest)) := by
  intro fuel
  induction fuel with
  | zero =>
    refine ⟨fun v rest _ _ h => absurd h (by omega),
      fun kvs acc rest _ _ _ h => absurd h (by omega),
      fun xs acc rest _ _ h => absurd h (by omega)⟩
  | succ f ih =>
    obtain ⟨ihV, ihM, ihE⟩ := ih
    refine ⟨?_, ?_, ?_⟩
    · intro v rest hv hr hlen
      cases v with
      | null => exact parseVal_null f rest
      | bool b =>
        cases b with
        | false => exact parseVal_false f rest
        | true => exact parseVal_true f rest
      | num n => exact parseVal_num f n rest hr
      | fnum l => exact absurd hv (by simp [wfJ])
      | str s2 =>
        have hs : s2.all plainChar = true := hv
        rw [show render (J.str s2) ++ rest =
            '\x22' :: (escapeStr s2 ++ '\x22' :: rest) from by
          simp [render, List.append_assoc], parseVal_quote,
          escapeStr_plain s2 hs, parseStr_plain s2 rest hs]
        rfl
      | arr xs =>
        cases xs with
        | nil => exact parseVal_arr0 f rest
        | cons x xs2 =>
          have hw : wfJ x = true ∧ wfListJ xs2 = true := by
            simpa [wfJ, wfListJ, Bool.and_eq_true] using hv
          obtain ⟨c, X0, hx, hvh⟩ := render_head x hw.1
          have hA : render (J.arr (x :: xs2)) ++ rest =
              '[' :: (c :: (X0 ++ (elemsSep xs2 ++ ']' :: rest))) := by
            show ('[' :: renderElems (x :: xs2) ++ [']']) ++ rest = _
            rw [renderElems_factor, hx]
            simp [List.append_assoc]
          have hB : c :: (X0 ++ (elemsSep xs2 ++ ']' :: rest)) =
              renderElems (x :: xs2) ++ ']' :: rest := by
            rw [renderElems_factor, hx]
            simp [List.append_assoc]
          have hlen2 : (renderElems (x :: xs2)).length + 1 < f := by
            have h3 : (render (J.arr (x :: xs2))).length =
                (renderElems (x :: xs2)).length + 2 := by
              simp [render]
            omega
          rw [hA, parseVal_arr_dispatch f c _ hvh, hB,
            ihE (x :: xs2) [] rest hv (by simp) hlen2]
          rfl
      | obj kvs =>
        cases kvs with
        | nil => exact parseVal_obj0 f rest
        | cons kv kvs2 =>
          obtain ⟨k, v0⟩ := kv
          have hA : render (J.obj ((k, v0) :: kvs2)) ++ rest =
              '\x7b' :: ('\x22' :: (escapeStr k ++
                ('\x22' :: ':' :: render v0 ++ (memSep kvs2 ++ '\x7d' :: rest)))) := by
            show ('\x7b' :: renderMembers ((k, v0) :: kvs2) ++ ['\x7d']) ++ rest = _
            rw [renderMembers_factor]
            simp [List.append_assoc]
          have hB : '\x22' :: (escapeStr k ++
                ('\x22' :: ':' :: render v0 ++ (memSep kvs2 ++ '\x7d' :: rest))) =
              renderMembers ((k, v0) :: kvs2) ++ '\x7d' :: rest := by
            rw [renderMembers_factor]
            simp [List.append_assoc]
          have hlen2 : (renderMembers ((k, v0) :: kvs2)).length < f := by
            have h3 : (render (J.obj ((k, v0) :: kvs2))).length =
                (renderMembers ((k, v0) :: kvs2)).length + 2 := by
              simp [render]
            omega
          rw [hA, parseVal_objNE, hB,
            ihM ((k, v0) :: kvs2) [] rest hv (by simp) (fun k2 _ => rfl) hlen2]
          rfl
    · intro kvs acc rest hwf hne hfresh hlen
      cases kvs with
      | nil => exact absurd rfl hne
      | cons kv kvs2 =>
        obtain ⟨k, v⟩ := kv
        have hw4 : (((k.all plainChar && !containsKey kvs2 k) && wfJ v) &&
            wfFieldsJ kvs2) = true := hwf
        rw [Bool.and_eq_true, Bool.and_eq_true, Bool.and_eq_true] at hw4
        have hk : k.all plainChar = true := hw4.1.1.1
        have hnc : containsKey kvs2 k = false := by
          have h5 := hw4.1.1.2
          simpa using h5
        have hwv : wfJ v = true := hw4.1.2
        have hwk2 : wfFieldsJ kvs2 = true := hw4.2
        have hacck : containsKey acc k = false :=
          hfresh k (by simp [containsKey, List.any_cons])
        have hs : renderMembers ((k, v) :: kvs2) ++ '\x7d' :: rest =
            '\x22' :: (k ++ '\x22' ::
              (':' :: (render v ++ (memSep kvs2 ++ '\x7d' :: rest)))) := by
          rw [renderMembers_factor, escapeStr_plain k hk]
          simp [List.append_assoc]
        have hps : parseStr (k ++ '\x22' ::
            (':' :: (render v ++ (memSep kvs2 ++ '\x7d' :: rest)))) =
            some (k, ':' :: (render v ++ (memSep kvs2 ++ '\x7d' :: rest))) :=
          parseStr_plain k _ hk
        have hskY : skipWs (render v ++ (memSep kvs2 ++ '\x7d' :: rest)) =
            render v ++ (memSep kvs2 ++ '\x7d' :: rest) :=
          skipWs_render_append v _ hwv
        have h3 : (renderMembers ((k, v) :: kvs2)).length =
            (escapeStr k).length + (render v).length + (memSep kvs2).length + 3 := by
          rw [renderMembers_factor]
          simp [List.length_append]
          omega
        have hlenv : (render v).length < f := by omega
        have hpv0 := ihV v (memSep kvs2 ++ '\x7d' :: rest) hwv
          (restOk_memSep kvs2 rest) hlenv
        cases kvs2 with
        | nil =>
          rw [hs, parseMembers_close f _ acc k _ v rest hps hskY hpv0,
            updKV_fresh acc k v hacck]
        | cons kv2 kvs3 =>
          have hpv : parseVal f (render v ++
              (memSep (kv2 :: kvs3) ++ '\x7d' :: rest)) =
              some (v, ',' :: (renderMembers (kv2 :: kvs3) ++ '\x7d' :: rest)) := hpv0
          rw [hs, parseMembers_comma f _ acc k _ v _ hps hskY hpv,
            skipWs_members kv2 kvs3 ('\x7d' :: rest),
            updKV_fresh acc k v hacck]
          have hfresh2 : ∀ k2, containsKey (kv2 :: kvs3) k2 = true →
              containsKey (acc ++ [(k, v)]) k2 = false := by
            intro k2 hk2
            rw [containsKey_append]
            have ha : containsKey acc k2 = false := by
              apply hfresh k2
              rw [show containsKey ((k, v) :: kv2 :: kvs3) k2 =
                ((k == k2) || containsKey (kv2 :: kvs3) k2) from rfl, hk2,
                Bool.or_true]
            have hkk2 : (k == k2) = false := by
              cases hbeq : (k == k2)
              · rfl
              · exfalso
                have hfeq : k = k2 := by simpa using hbeq
                rw [hfeq] at hnc
                rw [hnc] at hk2
                cases hk2
            have hb : containsKey [(k, v)] k2 = false := by
              simp [containsKey, List.any_cons, hkk2]
            rw [ha, hb]
            rfl
          have hms : (memSep (kv2 :: kvs3)).length =
              (renderMembers (kv2 :: kvs3)).length + 1 := by
            simp [memSep]
          have hlenm2 : (renderMembers (kv2 :: kvs3)).length < f := by omega
          rw [ihM (kv2 :: kvs3) (acc ++ [(k, v)]) rest hwk2 (by simp) hfresh2 hlenm2,
            List.append_assoc]
          rfl
    · intro xs acc rest hwl hne hlen
      cases xs with
      | nil => exact absurd rfl hne
      | cons x xs2 =>
        have hw : wfJ x = true ∧ wfListJ xs2 = true := by
          simpa [wfListJ, Bool.and_eq_true] using hwl
        have hfac : renderElems (x :: xs2) ++ ']' :: rest =
            render x ++ (elemsSep xs2 ++ ']' :: rest) := by
          rw [renderElems_factor]
          simp [List.append_assoc]
        have h3 : (renderElems (x :: xs2)).length =
            (render x).length + (elemsSep xs2).length := by
          rw [renderElems_factor]
          simp [List.length_append]
        have hlenx : (render x).length < f := by omega
        have hpv0 := ihV x (elemsSep xs2 ++ ']' :: rest) hw.1
          (restOk_elemsSep xs2 rest) hlenx
        cases xs2 with
        | nil =>
          have hpv : parseVal f (renderElems [x] ++ ']' :: rest) =
              some (x, ']' :: rest) := by
            rw [hfac]
            exact hpv0
          rw [parseElems_close f _ acc x rest hpv]
        | cons x2 xs3 =>
          have hpv : parseVal f (renderElems (x :: x2 :: xs3) ++ ']' :: rest) =
              some (x, ',' :: (renderElems (x2 :: xs3) ++ ']' :: rest)) := by
            rw [hfac]
            exact hpv0
          rw [parseElems_comma f _ acc x _ hpv]
          have hw2 : wfJ x2 = true ∧ wfListJ xs3 = true := by
            simpa [wfListJ, Bool.and_eq_true] using hw.2
          have hsk : skipWs (renderElems (x2 :: xs3) ++ ']' :: rest) =
              renderElems (x2 :: xs3) ++ ']' :: rest := by
            rw [renderElems_factor, List.append_assoc]
            exact skipWs_render_append x2 _ hw2.1
          have hes : (elemsSep (x2 :: xs3)).length =
              (renderElems (x2 :: xs3)).length + 1 := by
            simp [elemsSep]
          have hlen2e : (renderElems (x2 :: xs3)).length + 1 < f := by omega
          rw [hsk, ihE (x2 :: xs3) (acc ++ [x]) rest hw.2 (by simp) hlen2e,
            List.append_assoc]
          rfl

theorem loads_render (v : J) (hv : wfJ v = true) : loads (render v) = some v := by
  have h2 : parseVal ((render v).length + 1) (render v ++ []) = some (v, []) :=
    (roundAux ((render v).length + 1)).1 v [] hv rfl (by omega)
  rw [List.append_nil] at h2
  have h1 : skipWs (render v) = render v := by
    have h3 := skipWs_render_append v [] hv
    rwa [List.append_nil] at h3
  simp only [loads, h1, h2]
  rfl

/-- C3: idempotence as stated is false — a successful parse can return a value
whose minified serialization re-parses to a different value, because the
trailing-comma cleanup rewrites text inside quoted strings (witnessed by the
document whose string value contains a comma before a closing brace).  The
amended statement proved here: for every well-formed value (no floats,
plain-ASCII strings and keys, no duplicate keys) whose minified serialization
is left unchanged by the preprocessing pipeline, re-running robust_parse_json
on that serialization succeeds and returns the same value, for either setting
of both flags. -/
theorem c3_idempotence_amended (v : J) (md sdb : Bool) (hv : wfJ v = true)
    (hfix : cleanText sdb (render v) = render v) :
    robust_parse_json (render v) md sdb = Except.ok v := by
  apply robust_eq_stage1
  rw [hfix]
  exact loads_render v hv

theorem c3_idempotence_amended_witness :
    wfJ objA1 = true ∧ cleanText false (render objA1) = render objA1 ∧
    robust_parse_json (render objA1) false false = Except.ok objA1 :=
  ⟨by decide, by decide,
    c3_idempotence_amended objA1 false false (by decide) (by decide)⟩

theorem c3_counterexample :
    robust_parse_json exCommaComma false false =
      Except.ok (J.obj [(['a'], J.str [',', '\x7d'])]) ∧
    render (J.obj [(['a'], J.str [',', '\x7d'])]) = exCommaBrace ∧
    robust_parse_json exCommaBrace false false =
      Except.ok (J.obj [(['a'], J.str ['\x7d'])]) ∧
    ¬ J.obj [(['a'], J.str ['\x7d'])] = J.obj [(['a'], J.str [',', '\x7d'])] :=
  ⟨by decide, by decide, by decide, by decide⟩

end P2A
